import Mathlib

/-!
Verification development for the Dotzation halftone pipeline
(src/dotzation/halftone.py).

The Python module is shallowly embedded below.  Machine pixels are
natural numbers (mode "L" luminance, 0..255; RGB triples of the same),
Python floats are modelled as rationals, Python lists as Lean lists.
Pillow primitives used by the module are embedded by their documented
behaviour:

* Image.crop pads areas outside the image with zero (black) pixels;
* Image.histogram on an "L" image yields 256 bins counting pixel values;
* ImageDraw.ellipse fills the ellipse inscribed in the inclusive
  bounding box, and with a degenerate axis falls back to drawing the
  line of the box (a single pixel when the box is a point);
* grayscale conversion uses the ITU-R 601-2 transform
  L = (19595 R + 38470 G + 7471 B + 32768) >> 16.

A second, store-passing embedding near the end of the file makes the
allocation/mutation behaviour of each catalogued transform explicit in
order to settle the purity claims.
-/

namespace Dotzation

/-- Truncation toward zero, the conversion Python's `int()` applies to a
float.  On nonnegative arguments it agrees with the floor. -/
def ratTrunc (q : ℚ) : ℤ := if q < 0 then -⌊-q⌋ else ⌊q⌋

/-- Python 3 `round` to an integer: round half to even. -/
def pyRound (q : ℚ) : ℤ :=
  let f : ℤ := ⌊q⌋
  let r : ℚ := q - f
  if r < 1/2 then f
  else if 1/2 < r then f + 1
  else if Even f then f else f + 1

/-- The list `[0, step, 2*step, ...)` of the Python iteration
`range(0, stop, step)` (for positive `step`). -/
def pyRange (stop step : ℕ) : List ℕ :=
  (List.range ((stop + step - 1) / step)).map (· * step)

/-! ## Raster images

A grayscale ("L") raster and an RGB raster.  The pixel function is
meaningful on coordinates inside `width × height`; `padPx` extends it by
zero exactly as Pillow's `crop` does for out-of-bounds areas. -/

/-- A grayscale raster image (Pillow mode "L"). -/
structure GrayImage where
  width : ℕ
  height : ℕ
  px : ℕ → ℕ → ℕ

/-- An RGB raster image. -/
structure RGBImage where
  width : ℕ
  height : ℕ
  px : ℕ → ℕ → ℕ × ℕ × ℕ

/-- Validity of a grayscale raster: every in-bounds pixel is a byte. -/
def GrayImage.Valid (g : GrayImage) : Prop :=
  ∀ x y, x < g.width → y < g.height → g.px x y ≤ 255

/-- Validity of an RGB raster: every in-bounds channel is a byte. -/
def RGBImage.Valid (img : RGBImage) : Prop :=
  ∀ x y, x < img.width → y < img.height →
    (img.px x y).1 ≤ 255 ∧ (img.px x y).2.1 ≤ 255 ∧ (img.px x y).2.2 ≤ 255

/-- Pillow's ITU-R 601-2 luma transform used by `convert("L")` /
`ImageOps.grayscale`: `L = (19595 R + 38470 G + 7471 B + 32768) >> 16`. -/
def luma (p : ℕ × ℕ × ℕ) : ℕ :=
  (19595 * p.1 + 38470 * p.2.1 + 7471 * p.2.2 + 32768) / 65536

/-- Source `ImageOps.grayscale(image)`: convert an RGB raster to mode "L". -/
def grayscaleOf (img : RGBImage) : GrayImage :=
  { width := img.width, height := img.height, px := fun x y => luma (img.px x y) }

/-- Source `gray.convert("RGB")`: promote an "L" raster to RGB. -/
def grayToRGB (g : GrayImage) : RGBImage :=
  { width := g.width, height := g.height, px := fun x y => (g.px x y, g.px x y, g.px x y) }

/-- Pixel access with Pillow `crop` semantics: areas outside the image
read as zero (black) pixels. -/
def padPx (g : GrayImage) (x y : ℕ) : ℕ :=
  if x < g.width ∧ y < g.height then g.px x y else 0

/-- The row-major pixel values of `g.crop((left, top, left+w, top+h))`,
out-of-bounds areas zero-filled per Pillow. -/
def cropVals (g : GrayImage) (left top w h : ℕ) : List ℕ :=
  (List.range h).flatMap fun dy => (List.range w).map fun dx => padPx g (left + dx) (top + dy)

/-- The pixel values of `g.crop(box)` for a box given by corners, as the
ASCII sampler builds it. -/
def cropBoxVals (g : GrayImage) (x0 y0 x1 y1 : ℕ) : List ℕ :=
  cropVals g x0 y0 (x1 - x0) (y1 - y0)

/-! ## Histogram-based tile brightness

`tile.histogram()` on an "L" image returns 256 bins of value counts;
the sampler forms `sum(histogram)` and `sum(i * count)` and divides. -/

/-- One bin of `tile.histogram()`: how many pixels have value `i`. -/
def histCount (vals : List ℕ) (i : ℕ) : ℕ := vals.count i

/-- Source `sum(histogram)` - the total pixel count seen by the 256 bins. -/
def histTotal (vals : List ℕ) : ℕ :=
  ((List.range 256).map (histCount vals)).sum

/-- Source `sum(i * count for i, count in enumerate(histogram))`. -/
def histWeighted (vals : List ℕ) : ℕ :=
  ((List.range 256).map (fun i => i * histCount vals i)).sum

/-- Mean brightness of a tile, `none` when the histogram is empty (the
`total_pixels == 0` guard in the source). -/
def tileMeanOpt (vals : List ℕ) : Option ℚ :=
  if histTotal vals = 0 then none
  else some ((histWeighted vals : ℚ) / (histTotal vals : ℚ))

/-- Source `_tile_brightness`: the ASCII sampler's brightness, 255 on an empty
tile. -/
def tileBrightness (vals : List ℕ) : ℚ := (tileMeanOpt vals).getD 255

/-! ## Circular halftone renderer (`apply_circular_halftone`)

The renderer tiles the grayscale raster on a `dot_size × dot_size` grid
starting at (0,0); each tile is cropped with the *unclipped* box
`(left, top, left+dot_size, top+dot_size)` (Pillow zero-pads past the
edges), its histogram mean brightness taken, and a filled black disk of
radius `(dot_size/2) * (1 - brightness/255)` drawn centered at
`(left + dot_size/2, top + dot_size/2)` on a white canvas. -/

/-- Tile origins visited by the two nested `range(0, ·, dot_size)` loops,
as `(left, top)` pairs in iteration order. -/
def circCoords (w h d : ℕ) : List (ℕ × ℕ) :=
  (pyRange h d).flatMap fun top => (pyRange w d).map fun left => (left, top)

/-- Brightness of the circular renderer's tile at origin `(left, top)`:
histogram mean of the unclipped `d × d` crop (Pillow zero-padding),
`none` when `total_pixels == 0` (the `continue` branch). -/
def circTileMean (g : GrayImage) (d left top : ℕ) : Option ℚ :=
  tileMeanOpt (cropVals g left top d d)

/-- One `draw.ellipse` call issued by the circular renderer. -/
structure CircDisk where
  left : ℕ
  top : ℕ
  brightness : ℚ
  cx : ℚ
  cy : ℚ
  radius : ℚ
  deriving Repr, DecidableEq

/-- The disk the renderer draws for tile `(left, top)` of brightness `b`. -/
def circDiskOf (d : ℕ) (left top : ℕ) (b : ℚ) : CircDisk :=
  { left := left, top := top, brightness := b,
    cx := (left : ℚ) + (d : ℚ) / 2, cy := (top : ℚ) + (d : ℚ) / 2,
    radius := ((d : ℚ) / 2) * (1 - b / 255) }

/-- All disks drawn by `apply_circular_halftone` on `g` (after the
`dot_size = max(2, dot_size)` clamp), in drawing order; tiles with an
empty histogram are skipped. -/
def circDisks (g : GrayImage) (dot : ℕ) : List CircDisk :=
  let d := max 2 dot
  (circCoords g.width g.height d).filterMap fun lt =>
    (circTileMean g d lt.1 lt.2).map fun b => circDiskOf d lt.1 lt.2 b

/-- Conversion Pillow applies to a float draw coordinate (cast to C int,
truncation toward zero). -/
def pxCoord (q : ℚ) : ℤ := ratTrunc q

/-- Model of Pillow's filled `ImageDraw.ellipse` rasterisation for the
bounding box `(X0, Y0, X1, Y1)` (inclusive corners): with a degenerate
axis Pillow falls back to drawing the line of the box (a single pixel
when the box is a point); otherwise the inscribed ellipse is filled (we
use the standard inscribed-ellipse inequality, which is exact in the
degenerate cases this development evaluates). -/
def pilEllipseCovers (X0 Y0 X1 Y1 : ℚ) (x y : ℕ) : Bool :=
  let x0 := pxCoord X0
  let y0 := pxCoord Y0
  let x1 := pxCoord X1
  let y1 := pxCoord Y1
  if x1 < x0 ∨ y1 < y0 then false
  else
    let a := x1 - x0
    let b := y1 - y0
    if a = 0 ∨ b = 0 then
      decide (x0 ≤ (x : ℤ) ∧ (x : ℤ) ≤ x1 ∧ y0 ≤ (y : ℤ) ∧ (y : ℤ) ≤ y1)
    else
      decide ((2 * (x : ℤ) - (x0 + x1)) ^ 2 * b ^ 2
        + (2 * (y : ℤ) - (y0 + y1)) ^ 2 * a ^ 2 ≤ a ^ 2 * b ^ 2)

/-- Draw one filled black disk (`fill=0`) onto a canvas. -/
def drawDisk (canvas : GrayImage) (disk : CircDisk) : GrayImage :=
  { canvas with
    px := fun x y =>
      if pilEllipseCovers (disk.cx - disk.radius) (disk.cy - disk.radius)
          (disk.cx + disk.radius) (disk.cy + disk.radius) x y then 0
      else canvas.px x y }

/-- A blank white "L" canvas, `Image.new("L", (w, h), color=255)`. -/
def whiteCanvas (w h : ℕ) : GrayImage := { width := w, height := h, px := fun _ _ => 255 }

/-- The "L"-mode output of `apply_circular_halftone` before the final
RGB promotion. -/
def applyCircularHalftoneL (img : RGBImage) (dot : ℕ) : GrayImage :=
  let g := grayscaleOf img
  (circDisks g dot).foldl drawDisk (whiteCanvas g.width g.height)

/-- Source `apply_circular_halftone(image, dot_size)`. -/
def applyCircularHalftone (img : RGBImage) (dot : ℕ) : RGBImage :=
  grayToRGB (applyCircularHalftoneL img dot)

/-! ## Spec-side comparison definition for the clipping claim

The claim under test states the edge tiles of the circular renderer are
clipped to the image bounds *before* averaging.  The definition below
follows those words (mean of only the in-bounds pixels); it is the
comparison point, not a translation of the source. -/

/-- Mean luminance over only the in-bounds pixels of the tile
`[left, left+d) × [top, top+d)` - the brightness the clipping claim
asserts, stated from the spec text. -/
def clippedTileMean (g : GrayImage) (d left top : ℕ) : Option ℚ :=
  let vals := cropBoxVals g left top (min (left + d) g.width) (min (top + d) g.height)
  if vals.length = 0 then none
  else some ((vals.sum : ℚ) / (vals.length : ℚ))

/-- Sum of the in-bounds pixel luminances of the tile
`[left, left+d) × [top, top+d)`. -/
def inboundsTileSum (g : GrayImage) (d left top : ℕ) : ℕ :=
  (cropBoxVals g left top (min (left + d) g.width) (min (top + d) g.height)).sum

/-! ## ASCII halftone renderer

The font loaded by `ImageFont.load_default()` is an external resource;
it enters the embedding as a `FontMetrics` value supplying `getbbox`
(`None` for glyphs without a box) and the rendered glyph pixels of
`draw.text`.  Everything computed *from* those metrics follows the
source. -/

/-- Metrics and rendering of the bundled default font. -/
structure FontMetrics where
  getbbox : Char → Option (ℤ × ℤ × ℤ × ℤ)
  textPx : Char → ℕ → ℕ → ℕ

/-- Source `_ASCII_CHAR_BBOX = _ASCII_FONT.getbbox("M")` (the default bitmap
font always reports a box for "M"). -/
def asciiCharBBox (fm : FontMetrics) : ℤ × ℤ × ℤ × ℤ :=
  (fm.getbbox 'M').getD (0, 0, 0, 0)

/-- Source `_ASCII_CHAR_WIDTH = max(bbox[2] - bbox[0], 1)`. -/
def asciiCharWidth (fm : FontMetrics) : ℕ :=
  (max ((asciiCharBBox fm).2.2.1 - (asciiCharBBox fm).1) 1).toNat

/-- Source `_ASCII_CHAR_HEIGHT = max(bbox[3] - bbox[1], 1)`. -/
def asciiCharHeight (fm : FontMetrics) : ℕ :=
  (max ((asciiCharBBox fm).2.2.2 - (asciiCharBBox fm).2.1) 1).toNat

/-- Source `DEFAULT_ASCII_ASPECT = height / width if width else 1.0`. -/
def defaultAsciiAspect (fm : FontMetrics) : ℚ :=
  if asciiCharWidth fm ≠ 0 then (asciiCharHeight fm : ℚ) / (asciiCharWidth fm : ℚ) else 1

/-- Source `DEFAULT_ASCII_CHARSET = " .:-=+*#%@"`. -/
def defaultAsciiCharset : List Char := " .:-=+*#%@".toList

/-- Order-preserving deduplication, Python's `dict.fromkeys(charset)` /
the dedup loop of `_glyph_tiles`. -/
def pyDedup : List Char → List Char
  | [] => []
  | c :: rest => c :: pyDedup (rest.filter (fun x => x ≠ c))
termination_by l => l.length
decreasing_by
  exact Nat.lt_succ_of_le (List.length_filter_le _ _)

/-- The glyph cell of one character: the blank white cell with the glyph
drawn when the font reports a bounding box (the centering offsets of the
source are folded into the font's rendering function, as no claim
depends on the pixel content of a cell). -/
def glyphCell (fm : FontMetrics) (w h : ℕ) (c : Char) : GrayImage :=
  { width := w, height := h,
    px := fun x y => if (fm.getbbox c).isSome then fm.textPx c x y else 255 }

/-- Source `_glyph_tiles(characters_key)`: the shared cell width and height and
the per-character glyph images (an assoc list standing for the Python
dict, with the space fallback appended by `setdefault`).  The
`lru_cache` only memoises this pure computation. -/
def glyphTiles (fm : FontMetrics) (key : List Char) : ℕ × ℕ × List (Char × GrayImage) :=
  let uniqueChars := if key = [] then [' '] else
    (let u := pyDedup key; if u = [] then [' '] else u)
  let maxW := uniqueChars.foldl (fun acc c =>
    match fm.getbbox c with
    | none => acc
    | some (l, _, r, _) => max acc (max 0 (r - l)).toNat) 0
  let maxH := uniqueChars.foldl (fun acc c =>
    match fm.getbbox c with
    | none => acc
    | some (_, t, _, b) => max acc (max 0 (b - t)).toNat) 0
  let w := if maxW = 0 then asciiCharWidth fm else maxW
  let h := if maxH = 0 then asciiCharHeight fm else maxH
  let tiles := uniqueChars.map fun c => (c, glyphCell fm w h c)
  let tiles := if (tiles.lookup ' ').isSome then tiles
    else tiles ++ [(' ', { width := w, height := h, px := fun _ _ => 255 })]
  (w, h, tiles)

/-- Source `_ascii_geometry(dot_size, charset, cell_aspect)`: the vertical
sample step together with the glyph cell size and glyph images. -/
def asciiGeometry (fm : FontMetrics) (dot : ℕ) (charset : List Char)
    (cellAspect : Option ℚ) : ℕ × ℕ × ℕ × List (Char × GrayImage) :=
  let glyphKey := pyDedup charset
  let (gw0, gh0, glyphs) := glyphTiles fm glyphKey
  let gw := if gw0 = 0 then (if asciiCharWidth fm ≠ 0 then asciiCharWidth fm else 1) else gw0
  let gh := if gh0 = 0 then (if asciiCharHeight fm ≠ 0 then asciiCharHeight fm else 1) else gh0
  let aspect : ℚ := match cellAspect with
    | none => if gw = 0 then defaultAsciiAspect fm else (gh : ℚ) / (gw : ℚ)
    | some a => a
  let sampleHeight := (max 1 (pyRound ((dot : ℚ) * aspect))).toNat
  (sampleHeight, gw, gh, glyphs)

/-- Source `steps = max(len(charset) - 1, 0)` (truncated subtraction on ℕ). -/
def asciiSteps (n : ℕ) : ℕ := n - 1

/-- The ramp index the sampler computes for a tile of brightness `b`
against a charset of length `n`:
`min(steps, max(0, int(scale * steps + 0.5)))`, or 0 when `steps == 0`. -/
def asciiIndex (n : ℕ) (b : ℚ) : ℤ :=
  if asciiSteps n = 0 then 0
  else min (asciiSteps n : ℤ)
    (max 0 (ratTrunc ((1 - b / 255) * (asciiSteps n : ℚ) + 1/2)))

/-- The character one sampled tile contributes. -/
def asciiCharFor (charset : List Char) (b : ℚ) : Char :=
  charset.getD (asciiIndex charset.length b).toNat ' '

/-- Brightness of the ASCII sampler's tile at origin `(left, top)` - the
crop box is clipped with `min` against the image bounds. -/
def asciiTileBrightness (g : GrayImage) (d sh left top : ℕ) : ℚ :=
  tileBrightness (cropBoxVals g left top (min (left + d) g.width) (min (top + sh) g.height))

/-- The text lines of `_compute_ascii_halftone_data` (one list of
characters per sampled row). -/
def asciiLines (g : GrayImage) (d sh : ℕ) (charset : List Char) : List (List Char) :=
  (pyRange g.height sh).map fun top =>
    (pyRange g.width d).map fun left =>
      asciiCharFor charset (asciiTileBrightness g d sh left top)

/-- Source `_compute_ascii_halftone_data(image, dot_size, charset, cell_aspect)`:
lines, sample height, glyph cell width and height, and the glyph map. -/
def computeAsciiHalftoneData (fm : FontMetrics) (img : RGBImage) (dot : ℕ)
    (charset : List Char) (cellAspect : Option ℚ) :
    List (List Char) × ℕ × ℕ × ℕ × List (Char × GrayImage) :=
  let g := grayscaleOf img
  let d := max 2 dot
  let (sh, gw, gh, glyphs) := asciiGeometry fm d charset cellAspect
  (asciiLines g d sh charset, sh, gw, gh, glyphs)

/-- The ASCII renderer's failure modes (`ValueError`s in the source,
`InvalidCharset` / `InvalidAspect` in the design taxonomy). -/
inductive AsciiError where
  | invalidCharset
  | invalidAspect
  deriving Repr, DecidableEq

/-- Source `ascii_halftone_lines(image, dot_size, charset, cell_aspect)`:
validates the charset and the explicit aspect before any sampling, then
returns the text lines. -/
def asciiHalftoneLines (fm : FontMetrics) (img : RGBImage) (dot : ℕ)
    (charset : List Char) (cellAspect : Option ℚ) :
    Except AsciiError (List (List Char)) :=
  if charset = [] then .error .invalidCharset
  else match cellAspect with
    | some a =>
      if a ≤ 0 then .error .invalidAspect
      else .ok (computeAsciiHalftoneData fm img dot charset cellAspect).1
    | none => .ok (computeAsciiHalftoneData fm img dot charset cellAspect).1

/-- Source `ascii_halftone_text`: the lines joined with newlines. -/
def asciiHalftoneText (fm : FontMetrics) (img : RGBImage) (dot : ℕ)
    (charset : List Char) (cellAspect : Option ℚ) : Except AsciiError String :=
  (asciiHalftoneLines fm img dot charset cellAspect).map fun ls =>
    String.intercalate "\n" (ls.map List.asString)

/-- Source `image.paste(glyph, (ox, oy))` for grayscale rasters. -/
def pasteGray (canvas glyph : GrayImage) (ox oy : ℕ) : GrayImage :=
  { canvas with
    px := fun x y =>
      if ox ≤ x ∧ x < ox + glyph.width ∧ oy ≤ y ∧ y < oy + glyph.height then
        glyph.px (x - ox) (y - oy)
      else canvas.px x y }

/-- Model of `Image.resize((w, h), Image.NEAREST)`: the output dimensions
are exactly the requested size; pixels are sampled from the source grid
(the exact nearest-neighbour phase of Pillow is immaterial to every
claim, which only concern dimensions). -/
def resizeNearestGray (g : GrayImage) (w h : ℕ) : GrayImage :=
  { width := w, height := h, px := fun x y => padPx g (x * g.width / w) (y * g.height / h) }

/-- Model of `Image.resize((w, h), Image.NEAREST)` on an RGB raster. -/
def resizeNearestRGB (img : RGBImage) (w h : ℕ) : RGBImage :=
  { width := w, height := h,
    px := fun x y =>
      if x * img.width / w < img.width ∧ y * img.height / h < img.height then
        img.px (x * img.width / w) (y * img.height / h)
      else (0, 0, 0) }

/-- A blank white RGB raster, `Image.new("RGB", (w, h), color="white")`. -/
def whiteRGB (w h : ℕ) : RGBImage := { width := w, height := h, px := fun _ _ => (255, 255, 255) }

/-- The per-character paste positions of `ascii_lines_to_image`:
`(char, x, y)` with `x = column * glyph_cell_width` and
`y = row * glyph_cell_height`. -/
def pasteCoords (lines : List (List Char)) (gw gh : ℕ) : List (Char × ℕ × ℕ) :=
  lines.enum.flatMap fun rowLine =>
    rowLine.2.enum.map fun colChar => (colChar.2, colChar.1 * gw, rowLine.1 * gh)

/-- Source `ascii_lines_to_image(lines, glyphs, glyph_cell_width,
glyph_cell_height, target_cell_width, target_cell_height)`. -/
def asciiLinesToImage (lines : List (List Char)) (glyphs : List (Char × GrayImage))
    (gw gh tw th : ℕ) : RGBImage :=
  if lines = [] then whiteRGB 1 1
  else
    let maxColumns := (lines.map List.length).foldl max 0
    if maxColumns = 0 ∨ gw = 0 ∨ gh = 0 then whiteRGB 1 1
    else
      let canvas := whiteCanvas (maxColumns * gw) (lines.length * gh)
      let canvas := (pasteCoords lines gw gh).foldl (fun cv entry =>
        match glyphs.lookup entry.1 with
        | none => cv
        | some glyph => pasteGray cv glyph entry.2.1 entry.2.2) canvas
      let canvas :=
        if gw ≠ tw ∨ gh ≠ th then
          resizeNearestGray canvas (maxColumns * tw) (lines.length * th)
        else canvas
      grayToRGB canvas

/-- Source `apply_ascii_halftone(image, dot_size)`: render the default-charset
ASCII art to a raster and resize it to the input size when they differ. -/
def applyAsciiHalftone (fm : FontMetrics) (img : RGBImage) (dot : ℕ) : RGBImage :=
  let data := computeAsciiHalftoneData fm img dot defaultAsciiCharset none
  let asciiImage := asciiLinesToImage data.1 data.2.2.2.2 data.2.2.1 data.2.2.2.1 dot data.2.1
  if asciiImage.width ≠ img.width ∨ asciiImage.height ≠ img.height then
    resizeNearestRGB asciiImage img.width img.height
  else asciiImage

/-! ## Store-passing embedding of the catalogued transforms

Pillow images are heap objects; to settle the purity and no-mutation
claims the transforms are re-embedded against an explicit store of
image values.  Creating an image (`copy`, `convert`, `crop`,
`Image.new`, `resize`) allocates a fresh slot; `ImageDraw.Draw(...)` and
`paste` mutate the slot they are bound to in place.  The pixel-level
kernels of the Pillow primitives are abstract parameters (`PillowOps`):
every theorem about this layer holds for all kernels, so nothing
depends on how Pillow actually computes pixels. -/

/-- A heap of image values; a Python image variable is an index. -/
abbrev Store (α : Type) : Type := List α

/-- Allocate a fresh image, returning its handle. -/
def stAlloc {α : Type} (s : Store α) (v : α) : ℕ × Store α := (s.length, s ++ [v])

/-- Read the image bound to a handle. -/
def stGet {α : Type} [Inhabited α] (s : Store α) (h : ℕ) : α := s.getD h default

/-- Mutate the image bound to a handle in place. -/
def stSet {α : Type} (s : Store α) (h : ℕ) (v : α) : Store α := s.set h v

/-- Pure value-level kernels of the Pillow primitives the halftone
module calls, over an abstract image-value type `α`. -/
structure PillowOps (α : Type) where
  copy : α → α
  gray : α → α
  toRGB : α → α
  toL : α → α
  ditherFS : α → α
  ditherOrdered : α → α
  size : α → ℕ × ℕ
  newL : ℕ → ℕ → ℕ → α
  newRGBWhite : ℕ → ℕ → α
  crop : α → ℕ × ℕ × ℕ × ℕ → α
  histMean : α → Option ℚ
  drawEllipse : α → ℚ × ℚ × ℚ × ℚ → α
  paste : α → α → ℕ × ℕ → α
  resizeNearest : α → ℕ × ℕ → α
  glyphTiles : List Char → ℕ × ℕ × (Char → Option α)
  charWidth : ℕ
  charHeight : ℕ
  defaultAspect : ℚ

/-- Source `apply_identity`: `image.copy()`. -/
def applyIdentityS {α : Type} [Inhabited α] (ops : PillowOps α) (h _dot : ℕ)
    (s : Store α) : ℕ × Store α :=
  stAlloc s (ops.copy (stGet s h))

/-- Source `apply_grayscale`: `ImageOps.grayscale(image).convert("RGB")`. -/
def applyGrayscaleS {α : Type} [Inhabited α] (ops : PillowOps α) (h _dot : ℕ)
    (s : Store α) : ℕ × Store α :=
  let r1 := stAlloc s (ops.gray (stGet s h))
  stAlloc r1.2 (ops.toRGB (stGet r1.2 r1.1))

/-- Source `apply_floyd_steinberg`: `image.convert("1", dither).convert("RGB")`. -/
def applyFloydSteinbergS {α : Type} [Inhabited α] (ops : PillowOps α) (h _dot : ℕ)
    (s : Store α) : ℕ × Store α :=
  let r1 := stAlloc s (ops.ditherFS (stGet s h))
  stAlloc r1.2 (ops.toRGB (stGet r1.2 r1.1))

/-- Source `apply_ordered_dither`:
`image.convert("L").convert("1", ORDERED).convert("RGB")`. -/
def applyOrderedDitherS {α : Type} [Inhabited α] (ops : PillowOps α) (h _dot : ℕ)
    (s : Store α) : ℕ × Store α :=
  let r1 := stAlloc s (ops.toL (stGet s h))
  let r2 := stAlloc r1.2 (ops.ditherOrdered (stGet r1.2 r1.1))
  stAlloc r2.2 (ops.toRGB (stGet r2.2 r2.1))

/-- The ellipse bounding box the circular renderer passes to
`draw.ellipse` for tile `(left, top)` of brightness `b`. -/
def circEllipseRect (d : ℕ) (left top : ℕ) (b : ℚ) : ℚ × ℚ × ℚ × ℚ :=
  let radius := ((d : ℚ) / 2) * (1 - b / 255)
  let cx := (left : ℚ) + (d : ℚ) / 2
  let cy := (top : ℚ) + (d : ℚ) / 2
  (cx - radius, cy - radius, cx + radius, cy + radius)

/-- One iteration of the circular tile loop: crop the tile (allocating
it), and unless its histogram is empty draw the disk onto the output
canvas in place. -/
def circLoopBodyS {α : Type} [Inhabited α] (ops : PillowOps α) (gh oh d : ℕ)
    (s : Store α) (lt : ℕ × ℕ) : Store α :=
  let box := (lt.1, lt.2, lt.1 + d, lt.2 + d)
  let r := stAlloc s (ops.crop (stGet s gh) box)
  match ops.histMean (stGet r.2 r.1) with
  | none => r.2
  | some b => stSet r.2 oh (ops.drawEllipse (stGet r.2 oh) (circEllipseRect d lt.1 lt.2 b))

/-- Source `apply_circular_halftone` at the store level. -/
def applyCircularS {α : Type} [Inhabited α] (ops : PillowOps α) (h dot : ℕ)
    (s : Store α) : ℕ × Store α :=
  let r1 := stAlloc s (ops.gray (stGet s h))
  let wh := ops.size (stGet r1.2 r1.1)
  let d := max 2 dot
  let r2 := stAlloc r1.2 (ops.newL wh.1 wh.2 255)
  let s3 := (circCoords wh.1 wh.2 d).foldl (circLoopBodyS ops r1.1 r2.1 d) r2.2
  stAlloc s3 (ops.toRGB (stGet s3 r2.1))

/-- Source `_ascii_geometry` against abstract glyph kernels. -/
def asciiGeometryS {α : Type} (ops : PillowOps α) (dot : ℕ) (charset : List Char)
    (cellAspect : Option ℚ) : ℕ × ℕ × ℕ × (Char → Option α) :=
  let glyphKey := pyDedup charset
  let (gw0, gh0, glyphs) := ops.glyphTiles glyphKey
  let gw := if gw0 = 0 then (if ops.charWidth ≠ 0 then ops.charWidth else 1) else gw0
  let gh := if gh0 = 0 then (if ops.charHeight ≠ 0 then ops.charHeight else 1) else gh0
  let aspect : ℚ := match cellAspect with
    | none => if gw = 0 then ops.defaultAspect else (gh : ℚ) / (gw : ℚ)
    | some a => a
  let sampleHeight := (max 1 (pyRound ((dot : ℚ) * aspect))).toNat
  (sampleHeight, gw, gh, glyphs)

/-- The clipped crop box of the ASCII sampler's tile. -/
def asciiTileBox (w ht d sh left top : ℕ) : ℕ × ℕ × ℕ × ℕ :=
  (left, top, min (left + d) w, min (top + sh) ht)

/-- One iteration of the ASCII sampling loop: crop the tile (allocating
it), measure it, and append the selected character to the current row. -/
def asciiSampleBodyS {α : Type} [Inhabited α] (ops : PillowOps α) (gh w ht d sh : ℕ)
    (charset : List Char) (top : ℕ) (acc : Store α × List Char) (left : ℕ) :
    Store α × List Char :=
  let r := stAlloc acc.1 (ops.crop (stGet acc.1 gh) (asciiTileBox w ht d sh left top))
  let b := (ops.histMean (stGet r.2 r.1)).getD 255
  (r.2, acc.2 ++ [asciiCharFor charset b])

/-- One row of the ASCII sampling loop: sample every tile of the row
(allocating the crops) and append the finished text line. -/
def asciiRowLoopS {α : Type} [Inhabited α] (ops : PillowOps α) (gh w ht d sh : ℕ)
    (charset : List Char) (acc : Store α × List (List Char)) (top : ℕ) :
    Store α × List (List Char) :=
  let inner := (pyRange w d).foldl (asciiSampleBodyS ops gh w ht d sh charset top)
    (acc.1, [])
  (inner.1, acc.2 ++ [inner.2])

/-- The ASCII sampling loops of `_compute_ascii_halftone_data`,
returning the final store and the text lines. -/
def asciiSampleLoopS {α : Type} [Inhabited α] (ops : PillowOps α) (gh w ht d sh : ℕ)
    (charset : List Char) (s : Store α) : Store α × List (List Char) :=
  (pyRange ht sh).foldl (asciiRowLoopS ops gh w ht d sh charset) (s, [])

/-- One glyph paste of `ascii_lines_to_image`: mutate the canvas slot. -/
def asciiPasteBodyS {α : Type} [Inhabited α] (ops : PillowOps α)
    (glyphs : Char → Option α) (ch : ℕ) (s : Store α) (entry : Char × ℕ × ℕ) :
    Store α :=
  match glyphs entry.1 with
  | none => s
  | some glyph => stSet s ch (ops.paste (stGet s ch) glyph (entry.2.1, entry.2.2))

/-- Source `ascii_lines_to_image` at the store level. -/
def asciiLinesToImageS {α : Type} [Inhabited α] (ops : PillowOps α)
    (lines : List (List Char)) (glyphs : Char → Option α) (gw gh tw th : ℕ)
    (s : Store α) : ℕ × Store α :=
  if lines = [] then stAlloc s (ops.newRGBWhite 1 1)
  else
    let maxColumns := (lines.map List.length).foldl max 0
    if maxColumns = 0 ∨ gw = 0 ∨ gh = 0 then stAlloc s (ops.newRGBWhite 1 1)
    else
      let r1 := stAlloc s (ops.newL (maxColumns * gw) (lines.length * gh) 255)
      let s2 := (pasteCoords lines gw gh).foldl (asciiPasteBodyS ops glyphs r1.1) r1.2
      let r2 :=
        if gw ≠ tw ∨ gh ≠ th then
          stAlloc s2 (ops.resizeNearest (stGet s2 r1.1) (maxColumns * tw, lines.length * th))
        else (r1.1, s2)
      stAlloc r2.2 (ops.toRGB (stGet r2.2 r2.1))

/-- Source `apply_ascii_halftone` at the store level. -/
def applyAsciiS {α : Type} [Inhabited α] (ops : PillowOps α) (h dot : ℕ)
    (s : Store α) : ℕ × Store α :=
  let r1 := stAlloc s (ops.gray (stGet s h))
  let wh := ops.size (stGet r1.2 r1.1)
  let d := max 2 dot
  let geom := asciiGeometryS ops d defaultAsciiCharset none
  let sampled := asciiSampleLoopS ops r1.1 wh.1 wh.2 d geom.1 defaultAsciiCharset r1.2
  let r2 := asciiLinesToImageS ops sampled.2 geom.2.2.2 geom.2.1 geom.2.2.1 dot geom.1
    sampled.1
  let asciiSize := ops.size (stGet r2.2 r2.1)
  let origSize := ops.size (stGet r2.2 h)
  if asciiSize ≠ origSize then
    stAlloc r2.2 (ops.resizeNearest (stGet r2.2 r2.1) origSize)
  else r2

/-- A halftone method record: name, transform, description. -/
structure HalftoneMethodS (α : Type) where
  name : String
  apply : ℕ → ℕ → Store α → ℕ × Store α
  description : String

/-- Source `HALFTONE_METHODS`, in catalogue (insertion) order. -/
def halftoneMethods {α : Type} [Inhabited α] (ops : PillowOps α) :
    List (HalftoneMethodS α) :=
  [ ⟨"Original", fun h dot s => applyIdentityS ops h dot s,
      "No processing; shows the original image."⟩,
    ⟨"Grayscale", fun h dot s => applyGrayscaleS ops h dot s,
      "Convert the image to grayscale."⟩,
    ⟨"Floyd-Steinberg", fun h dot s => applyFloydSteinbergS ops h dot s,
      "High quality error-diffusion dithering using Pillow's implementation."⟩,
    ⟨"Ordered Dither", fun h dot s => applyOrderedDitherS ops h dot s,
      "Bayer ordered dithering for a structured halftone look."⟩,
    ⟨"Circular Halftone", fun h dot s => applyCircularS ops h dot s,
      "Generates circular dots sized by brightness for a traditional halftone pattern."⟩,
    ⟨"ASCII Halftone", fun h dot s => applyAsciiS ops h dot s,
      "Draws a square halftone using ASCII characters for a terminal-art style look."⟩ ]

/-- Source `available_methods()`: the catalogue's names in order. -/
def availableMethods {α : Type} [Inhabited α] (ops : PillowOps α) : List String :=
  (halftoneMethods ops).map (·.name)

/-- The registry's failure mode (`KeyError` in `describe_method`,
`ValueError` in `process_image`; `UnknownMethod` in the taxonomy). -/
inductive RegistryError where
  | unknownMethod
  deriving Repr, DecidableEq

/-- Source `describe_method(name)`. -/
def describeMethod {α : Type} [Inhabited α] (ops : PillowOps α) (name : String) :
    Except RegistryError String :=
  match (halftoneMethods ops).find? (fun m => m.name = name) with
  | none => .error .unknownMethod
  | some m => .ok m.description

/-- Source `process_image(image, method_name, dot_size)`. -/
def processImage {α : Type} [Inhabited α] (ops : PillowOps α) (s : Store α)
    (h : ℕ) (name : String) (dot : ℕ) : Except RegistryError (ℕ × Store α) :=
  match (halftoneMethods ops).find? (fun m => m.name = name) with
  | none => .error .unknownMethod
  | some m => .ok (m.apply h dot s)

/-! ## Concrete instances used by witnesses -/

/-- A concrete stand-in for the bundled default font: every glyph
reports the box `(0, 0, 6, 11)` and renders black pixels. -/
def fmModel : FontMetrics :=
  { getbbox := fun _ => some (0, 0, 6, 11), textPx := fun _ _ _ => 0 }

/-- A 16 × 16 all-white RGB raster. -/
def white16 : RGBImage := whiteRGB 16 16

/-- A 3 × 2 all-white RGB raster. -/
def white3x2 : RGBImage := whiteRGB 3 2

/-- A trivial kernel instance (image values collapsed to a point),
enough to instantiate the store-level theorems. -/
def opsUnit : PillowOps Unit :=
  { copy := id, gray := id, toRGB := id, toL := id, ditherFS := id,
    ditherOrdered := id, size := fun _ => (1, 1), newL := fun _ _ _ => (),
    newRGBWhite := fun _ _ => (), crop := fun _ _ => (), histMean := fun _ => some 255,
    drawEllipse := fun _ _ => (), paste := fun a _ _ => a,
    resizeNearest := fun a _ => a,
    glyphTiles := fun _ => (6, 11, fun _ => some ()),
    charWidth := 6, charHeight := 11, defaultAspect := 11 / 6 }


/-- The value-level effect of the circular tile loop on the output
canvas. -/
def circCanvasFold {α : Type} (ops : PillowOps α) (g : α) (d : ℕ) (c : α)
    (coords : List (ℕ × ℕ)) : α :=
  coords.foldl (fun c lt =>
    match ops.histMean (ops.crop g (lt.1, lt.2, lt.1 + d, lt.2 + d)) with
    | none => c
    | some b => ops.drawEllipse c (circEllipseRect d lt.1 lt.2 b)) c

/-- The tile images the circular loop allocates, in order. -/
def circTileAllocs {α : Type} (ops : PillowOps α) (g : α) (d : ℕ)
    (coords : List (ℕ × ℕ)) : List α :=
  coords.map fun lt => ops.crop g (lt.1, lt.2, lt.1 + d, lt.2 + d)

/-- Value-level brightness of one ASCII tile. -/
def asciiTileBrightnessS {α : Type} (ops : PillowOps α) (g : α)
    (w ht d sh left top : ℕ) : ℚ :=
  (ops.histMean (ops.crop g (asciiTileBox w ht d sh left top))).getD 255

/-- Value-level text line of one sampled row. -/
def asciiRowPureS {α : Type} (ops : PillowOps α) (g : α) (w ht d sh : ℕ)
    (charset : List Char) (top : ℕ) : List Char :=
  (pyRange w d).map fun left =>
    asciiCharFor charset (asciiTileBrightnessS ops g w ht d sh left top)

/-- Value-level text lines of the whole sampling loop. -/
def asciiLinesPureS {α : Type} (ops : PillowOps α) (g : α) (w ht d sh : ℕ)
    (charset : List Char) : List (List Char) :=
  (pyRange ht sh).map (asciiRowPureS ops g w ht d sh charset)

/-- The tile images one sampled row allocates. -/
def asciiRowCropsS {α : Type} (ops : PillowOps α) (g : α) (w ht d sh top : ℕ) :
    List α :=
  (pyRange w d).map fun left => ops.crop g (asciiTileBox w ht d sh left top)

/-- The tile images the whole sampling loop allocates. -/
def asciiCropsS {α : Type} (ops : PillowOps α) (g : α) (w ht d sh : ℕ) : List α :=
  (pyRange ht sh).flatMap (asciiRowCropsS ops g w ht d sh)

/-- Value-level effect of the glyph paste loop on the canvas. -/
def pasteFoldPure {α : Type} (ops : PillowOps α) (glyphs : Char → Option α)
    (c : α) (entries : List (Char × ℕ × ℕ)) : α :=
  entries.foldl (fun c e =>
    match glyphs e.1 with
    | none => c
    | some glyph => ops.paste c glyph (e.2.1, e.2.2)) c

/-- The images `ascii_lines_to_image` allocates, in order; the result
handle is always the last one. -/
def asciiRenderAllocs {α : Type} (ops : PillowOps α) (lines : List (List Char))
    (glyphs : Char → Option α) (gw gh tw th : ℕ) : List α :=
  if lines = [] then [ops.newRGBWhite 1 1]
  else
    let maxColumns := (lines.map List.length).foldl max 0
    if maxColumns = 0 ∨ gw = 0 ∨ gh = 0 then [ops.newRGBWhite 1 1]
    else
      let cfin := pasteFoldPure ops glyphs
        (ops.newL (maxColumns * gw) (lines.length * gh) 255) (pasteCoords lines gw gh)
      if gw ≠ tw ∨ gh ≠ th then
        [cfin, ops.resizeNearest cfin (maxColumns * tw, lines.length * th),
         ops.toRGB (ops.resizeNearest cfin (maxColumns * tw, lines.length * th))]
      else [cfin, ops.toRGB cfin]

/-- All images `apply_ascii_halftone` allocates for an input image value
`v`, in order; the result handle is the last one. -/
def asciiTrace {α : Type} [Inhabited α] (ops : PillowOps α) (v : α) (dot : ℕ) :
    List α :=
  let g := ops.gray v
  let wh := ops.size g
  let d := max 2 dot
  let geom := asciiGeometryS ops d defaultAsciiCharset none
  let crops := asciiCropsS ops g wh.1 wh.2 d geom.1
  let lines := asciiLinesPureS ops g wh.1 wh.2 d geom.1 defaultAsciiCharset
  let render := asciiRenderAllocs ops lines geom.2.2.2 geom.2.1 geom.2.2.1 dot geom.1
  let renderLast := render.getD (render.length - 1) default
  ([g] ++ crops ++ render)
    ++ (if ops.size renderLast ≠ ops.size v then
          [ops.resizeNearest renderLast (ops.size v)]
        else [])

/-- The claim's formula for the ramp index: `clamp(floor(scale*(n-1)+0.5), 0, n-1)`. -/
def claimAsciiIndex (n : ℕ) (b : ℚ) : ℤ :=
  max 0 (min ((n : ℤ) - 1) ⌊(1 - b / 255) * ((n : ℤ) - 1) + 1/2⌋)

/-! ## Theorems -/

theorem ratTrunc_of_nonneg {q : ℚ} (h : 0 ≤ q) : ratTrunc q = ⌊q⌋ := by
  simp [ratTrunc, not_lt.mpr h]

theorem ratTrunc_mono : Monotone ratTrunc := by
  intro q r hqr
  unfold ratTrunc
  by_cases hq : q < 0
  · by_cases hr : r < 0
    · simp only [if_pos hq, if_pos hr, neg_le_neg_iff]
      exact Int.floor_le_floor (by linarith)
    · simp only [if_pos hq, if_neg hr]
      have h1 : (0:ℤ) ≤ ⌊-q⌋ := Int.le_floor.mpr (by push_cast; linarith)
      have h2 : (0:ℤ) ≤ ⌊r⌋ := Int.le_floor.mpr (by push_cast; linarith [not_lt.mp hr])
      omega
  · have hr : ¬ r < 0 := by linarith [not_lt.mp hq]
    simp only [if_neg hq, if_neg hr]
    exact Int.floor_le_floor hqr

theorem pyRange_length (stop step : ℕ) :
    (pyRange stop step).length = (stop + step - 1) / step := by
  simp [pyRange]

theorem histTotal_nil : histTotal [] = 0 := by
  unfold histTotal
  have h : histCount ([] : List ℕ) = fun _ => 0 := funext fun i => by simp [histCount]
  rw [h, List.map_const', List.sum_replicate, smul_zero]

theorem indicator_range_sum (n a : ℕ) :
    ((List.range n).map (fun i => if a = i then 1 else 0)).sum
      = if a < n then 1 else 0 := by
  induction n with
  | zero => simp
  | succ n ih =>
    rw [List.range_succ, List.map_append, List.sum_append, ih]
    simp only [List.map_cons, List.map_nil, List.sum_cons, List.sum_nil]
    rcases lt_trichotomy a n with h | h | h
    · have h1 : a < n + 1 := by omega
      have h2 : a ≠ n := by omega
      simp [h, h1, h2]
    · subst h
      simp
    · have h1 : ¬ a < n := by omega
      have h2 : ¬ a < n + 1 := by omega
      have h3 : a ≠ n := by omega
      simp [h1, h2, h3]

theorem weighted_indicator_range_sum (n a : ℕ) :
    ((List.range n).map (fun i => i * (if a = i then 1 else 0))).sum
      = if a < n then a else 0 := by
  induction n with
  | zero => simp
  | succ n ih =>
    rw [List.range_succ, List.map_append, List.sum_append, ih]
    simp only [List.map_cons, List.map_nil, List.sum_cons, List.sum_nil]
    rcases lt_trichotomy a n with h | h | h
    · have h1 : a < n + 1 := by omega
      have h2 : a ≠ n := by omega
      simp [h, h1, h2]
    · subst h
      simp
    · have h1 : ¬ a < n := by omega
      have h2 : ¬ a < n + 1 := by omega
      have h3 : a ≠ n := by omega
      simp [h1, h2, h3]

theorem histCount_cons (a : ℕ) (l : List ℕ) (i : ℕ) :
    histCount (a :: l) i = histCount l i + (if a = i then 1 else 0) := by
  by_cases h : a = i
  · subst h; simp [histCount, List.count_cons_self]
  · simp [histCount, List.count_cons, h]

theorem histTotal_eq_length {vals : List ℕ} (h : ∀ v ∈ vals, v < 256) :
    histTotal vals = vals.length := by
  induction vals with
  | nil => simp [histTotal_nil]
  | cons a l ih =>
    have ha : a < 256 := h a (List.mem_cons_self a l)
    have hl : ∀ v ∈ l, v < 256 := fun v hv => h v (List.mem_cons_of_mem a hv)
    have expand : histTotal (a :: l)
        = ((List.range 256).map (fun i => histCount l i + (if a = i then 1 else 0))).sum := by
      unfold histTotal
      congr 1
      apply List.map_congr_left
      intro i _
      exact histCount_cons a l i
    rw [expand, List.sum_map_add, indicator_range_sum]
    have e1 : ((List.range 256).map fun i => histCount l i).sum = histTotal l := rfl
    rw [e1, ih hl, if_pos ha]
    simp

theorem histWeighted_nil : histWeighted [] = 0 := by
  unfold histWeighted
  have h : (fun i => i * histCount ([] : List ℕ) i) = fun _ => 0 :=
    funext fun i => by simp [histCount]
  rw [h, List.map_const', List.sum_replicate, smul_zero]

theorem histWeighted_eq_sum {vals : List ℕ} (h : ∀ v ∈ vals, v < 256) :
    histWeighted vals = vals.sum := by
  induction vals with
  | nil => simp [histWeighted_nil]
  | cons a l ih =>
    have ha : a < 256 := h a (List.mem_cons_self a l)
    have hl : ∀ v ∈ l, v < 256 := fun v hv => h v (List.mem_cons_of_mem a hv)
    have expand : histWeighted (a :: l)
        = ((List.range 256).map
            (fun i => i * histCount l i + i * (if a = i then 1 else 0))).sum := by
      unfold histWeighted
      congr 1
      apply List.map_congr_left
      intro i _
      rw [histCount_cons, Nat.mul_add]
    rw [expand, List.sum_map_add, weighted_indicator_range_sum]
    have e1 : ((List.range 256).map fun i => i * histCount l i).sum = histWeighted l := rfl
    rw [e1, ih hl, if_pos ha]
    simp [List.sum_cons]
    omega

theorem list_sum_le_card_mul {vals : List ℕ} {c : ℕ} (h : ∀ v ∈ vals, v ≤ c) :
    vals.sum ≤ c * vals.length := by
  induction vals with
  | nil => simp
  | cons a l ih =>
    have ha : a ≤ c := h a (List.mem_cons_self a l)
    have hl : ∀ v ∈ l, v ≤ c := fun v hv => h v (List.mem_cons_of_mem a hv)
    simp only [List.sum_cons, List.length_cons, Nat.mul_succ]
    have := ih hl
    omega

/-- On a tile whose pixels are all bytes, the histogram mean lies in
`[0, 255]`. -/
theorem tileMeanOpt_mem_Icc {vals : List ℕ} {b : ℚ}
    (hv : ∀ v ∈ vals, v < 256) (hb : tileMeanOpt vals = some b) :
    0 ≤ b ∧ b ≤ 255 := by
  unfold tileMeanOpt at hb
  by_cases h0 : histTotal vals = 0
  · rw [if_pos h0] at hb
    exact absurd hb (by simp)
  · rw [if_neg h0, Option.some.injEq] at hb
    subst hb
    have htpos : (0:ℚ) < (histTotal vals : ℚ) := by
      exact_mod_cast Nat.pos_of_ne_zero h0
    constructor
    · exact div_nonneg (by exact_mod_cast Nat.zero_le _) (le_of_lt htpos)
    · rw [div_le_iff₀ htpos]
      have hw : histWeighted vals ≤ 255 * histTotal vals := by
        rw [histWeighted_eq_sum hv, histTotal_eq_length hv]
        exact list_sum_le_card_mul (fun v hv' => Nat.lt_succ_iff.mp (hv v hv'))
      exact_mod_cast hw


theorem asciiSteps_cast {n : ℕ} (hn : 1 ≤ n) : (asciiSteps n : ℤ) = (n : ℤ) - 1 := by
  unfold asciiSteps
  omega

theorem scale_nonneg {b : ℚ} (hb : b ≤ 255) : 0 ≤ 1 - b / 255 := by
  have : b / 255 ≤ 1 := by
    rw [div_le_one (by norm_num : (0:ℚ) < 255)]
    exact hb
  linarith

/-- C2: for every charset length `n ≥ 1` and tile brightness
`b ∈ [0, 255]`, the sampler's ramp index equals
`clamp(floor((1 - b/255)·(n-1) + 0.5), 0, n-1)` (round half up), is a
valid index (`0 ≤ index < n`), and is 0 whenever `n = 1`, so a
single-character charset maps every tile to that character. -/
theorem ascii_index_formula (n : ℕ) (b : ℚ) (hn : 1 ≤ n) (hb0 : 0 ≤ b)
    (hb1 : b ≤ 255) :
    asciiIndex n b = claimAsciiIndex n b
    ∧ 0 ≤ asciiIndex n b ∧ asciiIndex n b < (n : ℤ)
    ∧ (n = 1 → asciiIndex n b = 0) := by
  by_cases h1 : n = 1
  · subst h1
    have hz : asciiSteps 1 = 0 := rfl
    have hidx : asciiIndex 1 b = 0 := by simp [asciiIndex, hz]
    refine ⟨?_, by simp [hidx], by simp [hidx], fun _ => hidx⟩
    rw [hidx]
    unfold claimAsciiIndex
    norm_num
  · have hn2 : 2 ≤ n := by omega
    have hsz : asciiSteps n ≠ 0 := by unfold asciiSteps; omega
    have hcast : (asciiSteps n : ℤ) = (n : ℤ) - 1 := asciiSteps_cast hn
    have hsnn : (0 : ℚ) ≤ ((asciiSteps n : ℕ) : ℚ) := by positivity
    have harg : 0 ≤ (1 - b / 255) * ((asciiSteps n : ℕ) : ℚ) + 1/2 := by
      have := mul_nonneg (scale_nonneg hb1) hsnn
      linarith
    have htr : ratTrunc ((1 - b / 255) * ((asciiSteps n : ℕ) : ℚ) + 1/2)
        = ⌊(1 - b / 255) * ((asciiSteps n : ℕ) : ℚ) + 1/2⌋ := ratTrunc_of_nonneg harg
    have hfl : 0 ≤ ⌊(1 - b / 255) * ((asciiSteps n : ℕ) : ℚ) + 1/2⌋ :=
      Int.le_floor.mpr (by push_cast; linarith)
    have hidxeq : asciiIndex n b
        = min ((asciiSteps n : ℤ))
            (max 0 ⌊(1 - b / 255) * ((asciiSteps n : ℕ) : ℚ) + 1/2⌋) := by
      unfold asciiIndex
      rw [if_neg hsz, htr]
    have hclaim : claimAsciiIndex n b
        = max 0 (min ((n : ℤ) - 1) ⌊(1 - b / 255) * ((asciiSteps n : ℕ) : ℚ) + 1/2⌋) := by
      unfold claimAsciiIndex
      have hq : ((asciiSteps n : ℕ) : ℚ) = (n : ℚ) - 1 := by
        have h2 : ((asciiSteps n : ℤ) : ℚ) = ((n : ℤ) : ℚ) - 1 := by exact_mod_cast hcast
        push_cast at h2
        linarith
      rw [hq]
      push_cast
      ring_nf
    have hs1 : (1 : ℤ) ≤ (asciiSteps n : ℤ) := by rw [hcast]; push_cast; omega
    constructor
    · rw [hidxeq, hclaim, ← hcast]
      omega
    · refine ⟨by rw [hidxeq]; omega, ?_, fun h => absurd h h1⟩
      rw [hidxeq]
      have : (asciiSteps n : ℤ) < (n : ℤ) := by rw [hcast]; omega
      omega

/-- Closed witness for C2 at `n = 3`, `b = 100`. -/
theorem ascii_index_formula_witness :
    (1 ≤ 3 ∧ (0:ℚ) ≤ 100 ∧ (100:ℚ) ≤ 255)
    ∧ (asciiIndex 3 100 = claimAsciiIndex 3 100
      ∧ 0 ≤ asciiIndex 3 100 ∧ asciiIndex 3 100 < 3
      ∧ (3 = 1 → asciiIndex 3 100 = 0)) :=
  ⟨⟨by norm_num, by norm_num, by norm_num⟩,
    ascii_index_formula 3 100 (by norm_num) (by norm_num) (by norm_num)⟩

/-- C5: the brightness-to-index mapping is antitone - a darker tile
(smaller brightness) never receives a smaller ramp index. -/
theorem ascii_index_antitone (n : ℕ) (b1 b2 : ℚ) (h : b1 < b2) :
    asciiIndex n b2 ≤ asciiIndex n b1 := by
  unfold asciiIndex
  by_cases hsz : asciiSteps n = 0
  · simp [hsz]
  · simp only [hsz, if_false]
    have hsnn : (0 : ℚ) ≤ ((asciiSteps n : ℕ) : ℚ) := by positivity
    have hscale : (1 - b2 / 255) ≤ (1 - b1 / 255) := by linarith
    have harg : (1 - b2 / 255) * ((asciiSteps n : ℕ) : ℚ) + 1/2
        ≤ (1 - b1 / 255) * ((asciiSteps n : ℕ) : ℚ) + 1/2 := by
      have := mul_le_mul_of_nonneg_right hscale hsnn
      linarith
    exact min_le_min le_rfl (max_le_max le_rfl (ratTrunc_mono harg))

/-- Closed witness for C5 at `n = 2`, `b1 = 0 < b2 = 255`. -/
theorem ascii_index_antitone_witness :
    (0:ℚ) < 255 ∧ asciiIndex 2 255 ≤ asciiIndex 2 0 :=
  ⟨by norm_num, ascii_index_antitone 2 0 255 (by norm_num)⟩

theorem nat_ceilDiv_eq_ceil {a b : ℕ} (hb : 0 < b) :
    (((a + b - 1) / b : ℕ) : ℤ) = ⌈(a : ℚ) / (b : ℚ)⌉ := by
  have hbq : (0 : ℚ) < (b : ℚ) := by exact_mod_cast hb
  rw [← Nat.ceilDiv_eq_add_pred_div]
  apply le_antisymm
  · have hcnn : (0:ℤ) ≤ ⌈(a : ℚ) / (b : ℚ)⌉ := Int.ceil_nonneg (by positivity)
    have hle : (a:ℚ)/(b:ℚ) ≤ ((⌈(a : ℚ) / (b : ℚ)⌉.toNat : ℕ) : ℚ) := by
      have := Int.le_ceil ((a:ℚ)/(b:ℚ))
      have hc : ((⌈(a : ℚ) / (b : ℚ)⌉.toNat : ℕ) : ℚ) = ((⌈(a : ℚ) / (b : ℚ)⌉ : ℤ) : ℚ) := by
        exact_mod_cast congrArg (fun z : ℤ => (z : ℚ)) (Int.toNat_of_nonneg hcnn)
      rw [hc]
      exact this
    have hnat : a ≤ b * ⌈(a : ℚ) / (b : ℚ)⌉.toNat := by
      rw [div_le_iff₀ hbq] at hle
      have : (a : ℚ) ≤ ((b * ⌈(a : ℚ) / (b : ℚ)⌉.toNat : ℕ) : ℚ) := by
        push_cast
        linarith
      exact_mod_cast this
    have hcd : a ⌈/⌉ b ≤ ⌈(a : ℚ) / (b : ℚ)⌉.toNat :=
      (ceilDiv_le_iff_le_smul hb).mpr (by simpa [smul_eq_mul] using hnat)
    omega
  · rw [Int.ceil_le]
    have hsm := le_smul_ceilDiv (a := b) (b := a) hb
    rw [smul_eq_mul] at hsm
    rw [div_le_iff₀ hbq]
    have : (a : ℚ) ≤ (((a ⌈/⌉ b) * b : ℕ) : ℚ) := by
      exact_mod_cast hsm.trans_eq (Nat.mul_comm b (a ⌈/⌉ b))
    push_cast at this ⊢
    linarith

theorem sampleHeight_pos (fm : FontMetrics) (d : ℕ) (charset : List Char)
    (ca : Option ℚ) : 1 ≤ (asciiGeometry fm d charset ca).1 := by
  rcases hgt : glyphTiles fm (pyDedup charset) with ⟨gw0, gh0, glyphs⟩
  simp only [asciiGeometry, hgt]
  omega

/-- C6 (amended): `ascii_halftone_lines` (and `_text`) fails with
`InvalidCharset` exactly on the empty charset; it fails with
`InvalidAspect` exactly when the charset is non-empty *and* an explicit
aspect `≤ 0` is supplied (the charset is validated first); with valid
arguments both entry points succeed, and the text entry point fails
exactly when the lines entry point does, so no partial output exists on
failure. -/
theorem ascii_validation_errors (fm : FontMetrics) (img : RGBImage) (dot : ℕ)
    (charset : List Char) (ca : Option ℚ) :
    (asciiHalftoneLines fm img dot charset ca = .error .invalidCharset ↔ charset = [])
    ∧ (asciiHalftoneLines fm img dot charset ca = .error .invalidAspect
        ↔ (charset ≠ [] ∧ ∃ a, ca = some a ∧ a ≤ 0))
    ∧ ((charset ≠ [] ∧ ∀ a ∈ ca, 0 < a) →
        ∃ ls, asciiHalftoneLines fm img dot charset ca = .ok ls
          ∧ asciiHalftoneText fm img dot charset ca
            = .ok (String.intercalate "\n" (ls.map List.asString)))
    ∧ (∀ e, asciiHalftoneText fm img dot charset ca = .error e
        ↔ asciiHalftoneLines fm img dot charset ca = .error e) := by
  unfold asciiHalftoneText asciiHalftoneLines
  by_cases hcs : charset = []
  · rw [if_pos hcs]
    refine ⟨by simp [hcs], by simp [hcs], ?_, by intro e; simp [Except.map]⟩
    rintro ⟨h1, _⟩
    exact absurd hcs h1
  · rw [if_neg hcs]
    rcases ca with _ | a
    · refine ⟨by simp [hcs], by simp, ?_, by intro e; simp [Except.map]⟩
      intro _
      exact ⟨_, rfl, by simp [Except.map]⟩
    · by_cases ha : a ≤ 0
      · rw [show (match some a with
            | some x =>
              if x ≤ 0 then (Except.error AsciiError.invalidAspect)
              else Except.ok (computeAsciiHalftoneData fm img dot charset (some a)).1
            | none => Except.ok (computeAsciiHalftoneData fm img dot charset (some a)).1)
            = Except.error AsciiError.invalidAspect from by simp [ha]]
        refine ⟨by simp [hcs], by simp [hcs, ha], ?_, by intro e; simp [Except.map]⟩
        rintro ⟨_, hpos⟩
        exact absurd (hpos a (by simp)) (by linarith)
      · rw [show (match some a with
            | some x =>
              if x ≤ 0 then (Except.error AsciiError.invalidAspect)
              else Except.ok (computeAsciiHalftoneData fm img dot charset (some a)).1
            | none => Except.ok (computeAsciiHalftoneData fm img dot charset (some a)).1)
            = Except.ok (computeAsciiHalftoneData fm img dot charset (some a)).1 from by
              simp [ha]]
        refine ⟨by simp [hcs], ?_, ?_, by intro e; simp [Except.map]⟩
        · constructor
          · intro h
            exact absurd h (by simp)
          · rintro ⟨-, a', ha', hle⟩
            rw [Option.some.injEq] at ha'
            subst ha'
            exact absurd hle ha
        · intro _
          exact ⟨_, rfl, by simp [Except.map]⟩

/-- Closed witness for C6 with a non-empty charset and no explicit
aspect. -/
theorem ascii_validation_errors_witness :
    ((['a'] : List Char) ≠ [] ∧ ∀ a ∈ (none : Option ℚ), 0 < a)
    ∧ ∃ ls, asciiHalftoneLines fmModel white3x2 8 ['a'] none = .ok ls
      ∧ asciiHalftoneText fmModel white3x2 8 ['a'] none
        = .ok (String.intercalate "\n" (ls.map List.asString)) :=
  ⟨⟨by simp, fun a h => nomatch h⟩,
    (ascii_validation_errors fmModel white3x2 8 ['a'] none).2.2.1
      ⟨by simp, fun a h => nomatch h⟩⟩

/-- C6 counterexample to the claim as stated: with an empty charset and
an explicit aspect of 0 (a non-positive explicit aspect), the call
fails with `InvalidCharset`, not `InvalidAspect`, so "fails with
InvalidAspect iff an explicit aspect ≤ 0 is supplied" is false. -/
theorem ascii_validation_order_counterexample :
    (0 : ℚ) ≤ 0
    ∧ asciiHalftoneLines fmModel white3x2 8 [] (some 0)
        = .error AsciiError.invalidCharset
    ∧ asciiHalftoneLines fmModel white3x2 8 [] (some 0)
        ≠ .error AsciiError.invalidAspect := by
  refine ⟨le_refl 0, rfl, ?_⟩
  intro h
  have h2 : (Except.error AsciiError.invalidCharset : Except AsciiError (List (List Char)))
      = .error .invalidAspect := h
  simp at h2

/-- C8: for a non-empty charset, a valid (or omitted) aspect, and a
positive-size image, the ASCII renderer succeeds and returns exactly
`ceil(H / sample_height)` lines of `ceil(W / d)` characters each, where
`d = max(2, dot_size)` (values below 2 are clamped, never an error) and
`sample_height = max(1, round(d * aspect))` for an explicit aspect. -/
theorem ascii_line_geometry (fm : FontMetrics) (img : RGBImage) (dot : ℕ)
    (charset : List Char) (ca : Option ℚ)
    (hcs : charset ≠ []) (hasp : ∀ a ∈ ca, 0 < a)
    (hw : 1 ≤ img.width) (hh : 1 ≤ img.height) :
    ∃ lines,
      asciiHalftoneLines fm img dot charset ca = .ok lines
      ∧ 2 ≤ max 2 dot
      ∧ (lines.length : ℤ)
          = ⌈(img.height : ℚ) / ((asciiGeometry fm (max 2 dot) charset ca).1 : ℚ)⌉
      ∧ (∀ l ∈ lines, (l.length : ℤ) = ⌈(img.width : ℚ) / ((max 2 dot : ℕ) : ℚ)⌉)
      ∧ (∀ a, ca = some a →
          (asciiGeometry fm (max 2 dot) charset ca).1
            = (max 1 (pyRound (((max 2 dot : ℕ) : ℚ) * a))).toNat) := by
  have hok : asciiHalftoneLines fm img dot charset ca
      = .ok (asciiLines (grayscaleOf img) (max 2 dot)
          (asciiGeometry fm (max 2 dot) charset ca).1 charset) := by
    unfold asciiHalftoneLines
    rw [if_neg hcs]
    rcases ca with _ | a
    · rfl
    · have hna : ¬ a ≤ 0 := by
        have := hasp a (by simp)
        linarith
      simp only [hna, if_false]
      rfl
  refine ⟨_, hok, by omega, ?_, ?_, ?_⟩
  · have hsh := sampleHeight_pos fm (max 2 dot) charset ca
    unfold asciiLines
    rw [List.length_map, pyRange_length]
    exact nat_ceilDiv_eq_ceil (by omega)
  · intro l hl
    unfold asciiLines at hl
    rcases List.mem_map.mp hl with ⟨top, _, rfl⟩
    rw [List.length_map, pyRange_length]
    exact nat_ceilDiv_eq_ceil (by omega)
  · intro a haeq
    subst haeq
    rcases hgt : glyphTiles fm (pyDedup charset) with ⟨gw0, gh0, glyphs⟩
    simp only [asciiGeometry, hgt]

/-- Closed witness for C8: a 3 × 2 image, `dot_size = 2`, charset "a",
explicit aspect 2, giving 1 line of 2 characters. -/
theorem ascii_line_geometry_witness :
    ((['a'] : List Char) ≠ [] ∧ (∀ a ∈ (some (2:ℚ) : Option ℚ), 0 < a)
      ∧ 1 ≤ white3x2.width ∧ 1 ≤ white3x2.height)
    ∧ ∃ lines,
      asciiHalftoneLines fmModel white3x2 2 ['a'] (some 2) = .ok lines
      ∧ 2 ≤ max 2 2
      ∧ (lines.length : ℤ)
          = ⌈(white3x2.height : ℚ) / ((asciiGeometry fmModel (max 2 2) ['a'] (some 2)).1 : ℚ)⌉
      ∧ (∀ l ∈ lines, (l.length : ℤ) = ⌈(white3x2.width : ℚ) / ((max 2 2 : ℕ) : ℚ)⌉)
      ∧ (∀ a, (some (2:ℚ) : Option ℚ) = some a →
          (asciiGeometry fmModel (max 2 2) ['a'] (some 2)).1
            = (max 1 (pyRound (((max 2 2 : ℕ) : ℚ) * a))).toNat) :=
  ⟨⟨by simp,
      by intro a ha; rw [Option.mem_def, Option.some.injEq] at ha; subst ha; norm_num,
      by decide, by decide⟩,
    ascii_line_geometry fmModel white3x2 2 ['a'] (some 2) (by simp)
      (by intro a ha; rw [Option.mem_def, Option.some.injEq] at ha; subst ha; norm_num)
      (by decide) (by decide)⟩

theorem fitToSize_dims (a : RGBImage) (w h : ℕ) :
    (if a.width ≠ w ∨ a.height ≠ h then resizeNearestRGB a w h else a).width = w
    ∧ (if a.width ≠ w ∨ a.height ≠ h then resizeNearestRGB a w h else a).height = h := by
  by_cases hc : a.width ≠ w ∨ a.height ≠ h
  · rw [if_pos hc]
    exact ⟨rfl, rfl⟩
  · rw [if_neg hc]
    push_neg at hc
    exact hc

/-- C10: for a positive-size input, the catalogued ASCII transform
returns a raster of exactly the input dimensions (the rendered glyph
canvas is resized to the input size whenever the sizes differ). -/
theorem ascii_output_dimensions (fm : FontMetrics) (img : RGBImage) (dot : ℕ)
    (hw : 1 ≤ img.width) (hh : 1 ≤ img.height) :
    (applyAsciiHalftone fm img dot).width = img.width
    ∧ (applyAsciiHalftone fm img dot).height = img.height := by
  unfold applyAsciiHalftone
  exact fitToSize_dims _ img.width img.height

/-- Closed witness for C10 on the 16 × 16 white raster. -/
theorem ascii_output_dimensions_witness :
    (1 ≤ white16.width ∧ 1 ≤ white16.height)
    ∧ (applyAsciiHalftone fmModel white16 8).width = white16.width
    ∧ (applyAsciiHalftone fmModel white16 8).height = white16.height :=
  ⟨⟨by decide, by decide⟩,
    ascii_output_dimensions fmModel white16 8 (by decide) (by decide)⟩

theorem luma_le_255 {p : ℕ × ℕ × ℕ} (h1 : p.1 ≤ 255) (h2 : p.2.1 ≤ 255)
    (h3 : p.2.2 ≤ 255) : luma p ≤ 255 := by
  unfold luma
  omega

theorem grayscaleOf_valid {img : RGBImage} (hv : img.Valid) :
    (grayscaleOf img).Valid := by
  intro x y hx hy
  exact luma_le_255 (hv x y hx hy).1 (hv x y hx hy).2.1 (hv x y hx hy).2.2

theorem padPx_le_255 {g : GrayImage} (hv : g.Valid) (x y : ℕ) :
    padPx g x y ≤ 255 := by
  unfold padPx
  split
  · next h => exact hv x y h.1 h.2
  · omega

theorem cropVals_lt_256 {g : GrayImage} (hv : g.Valid) (l t w h : ℕ) :
    ∀ v ∈ cropVals g l t w h, v < 256 := by
  intro v hvmem
  unfold cropVals at hvmem
  rcases List.mem_flatMap.mp hvmem with ⟨dy, _, hmem2⟩
  rcases List.mem_map.mp hmem2 with ⟨dx, _, rfl⟩
  exact Nat.lt_succ_of_le (padPx_le_255 hv _ _)

theorem cropVals_length (g : GrayImage) (l t w h : ℕ) :
    (cropVals g l t w h).length = h * w := by
  unfold cropVals
  rw [List.length_flatMap]
  have hmap : List.map (List.length ∘ fun dy =>
      (List.range w).map fun dx => padPx g (l + dx) (t + dy)) (List.range h)
      = (List.range h).map (fun _ => w) := by
    apply List.map_congr_left
    intro dy _
    simp
  rw [hmap, List.map_const', List.sum_replicate, List.length_range, smul_eq_mul]

theorem length_filterMap_of_isSome {α β : Type} {f : α → Option β} {l : List α}
    (h : ∀ x ∈ l, (f x).isSome) : (l.filterMap f).length = l.length := by
  induction l with
  | nil => rfl
  | cons a l ih =>
    have ha := h a (List.mem_cons_self a l)
    rcases Option.isSome_iff_exists.mp ha with ⟨b, hb⟩
    rw [List.filterMap_cons, hb]
    simp only [List.length_cons]
    rw [ih (fun x hx => h x (List.mem_cons_of_mem a hx))]

/-- On a valid image every circular tile has a defined brightness (the
unclipped zero-padded crop always holds `d²` pixels). -/
theorem circTileMean_isSome {g : GrayImage} (hv : g.Valid) {d : ℕ} (hd : 1 ≤ d)
    (left top : ℕ) : (circTileMean g d left top).isSome := by
  unfold circTileMean tileMeanOpt
  have htot : histTotal (cropVals g left top d d) = d * d := by
    rw [histTotal_eq_length (cropVals_lt_256 hv _ _ _ _), cropVals_length]
  rw [htot]
  have hne : ¬ d * d = 0 := by
    have : 0 < d * d := Nat.mul_pos (by omega) (by omega)
    omega
  simp [hne]

/-- C1: with `dot_size ≥ 2` and a valid input image, the circular
renderer draws one disk per grid tile (none is skipped); every disk is
centered at the unclipped tile center `(left + dot_size/2,
top + dot_size/2)` and has radius `(dot_size/2)·(1 − b/255)` for the
tile's histogram-mean brightness `b ∈ [0, 255]`; every radius lies in
`[0, dot_size/2]`, the radius is monotone in tile darkness, and the
output raster is exactly the white canvas with these black disks
drawn. -/
theorem circular_disk_geometry (img : RGBImage) (dot : ℕ)
    (hdot : 2 ≤ dot) (hv : img.Valid) :
    (∀ disk ∈ circDisks (grayscaleOf img) dot,
        disk.cx = (disk.left : ℚ) + (dot : ℚ) / 2
        ∧ disk.cy = (disk.top : ℚ) + (dot : ℚ) / 2
        ∧ disk.radius = ((dot : ℚ) / 2) * (1 - disk.brightness / 255)
        ∧ 0 ≤ disk.brightness ∧ disk.brightness ≤ 255
        ∧ 0 ≤ disk.radius ∧ disk.radius ≤ (dot : ℚ) / 2)
    ∧ (circDisks (grayscaleOf img) dot).length
        = (circCoords img.width img.height dot).length
    ∧ (∀ b1 b2 : ℚ, 0 ≤ b1 → b1 ≤ 255 → 0 ≤ b2 → b2 ≤ 255 →
        1 - b1 / 255 ≤ 1 - b2 / 255 →
        (circDiskOf dot 0 0 b1).radius ≤ (circDiskOf dot 0 0 b2).radius)
    ∧ applyCircularHalftone img dot
        = grayToRGB ((circDisks (grayscaleOf img) dot).foldl drawDisk
            (whiteCanvas img.width img.height)) := by
  have hmax : max 2 dot = dot := Nat.max_eq_right hdot
  have hgv : (grayscaleOf img).Valid := grayscaleOf_valid hv
  refine ⟨?_, ?_, ?_, rfl⟩
  · intro disk hdisk
    unfold circDisks at hdisk
    rw [hmax] at hdisk
    rcases List.mem_filterMap.mp hdisk with ⟨lt, _, hsome⟩
    rcases Option.map_eq_some'.mp hsome with ⟨b, hb, rfl⟩
    have hbb : 0 ≤ b ∧ b ≤ 255 :=
      tileMeanOpt_mem_Icc (cropVals_lt_256 hgv _ _ _ _) hb
    have hdq : (0 : ℚ) ≤ (dot : ℚ) / 2 := by positivity
    have hs0 : 0 ≤ 1 - b / 255 := scale_nonneg hbb.2
    have hs1 : 1 - b / 255 ≤ 1 := by
      have : 0 ≤ b / 255 := div_nonneg hbb.1 (by norm_num)
      linarith
    refine ⟨rfl, rfl, rfl, hbb.1, hbb.2, mul_nonneg hdq hs0, ?_⟩
    calc ((dot : ℚ) / 2) * (1 - b / 255) ≤ ((dot : ℚ) / 2) * 1 :=
        mul_le_mul_of_nonneg_left hs1 hdq
      _ = (dot : ℚ) / 2 := mul_one _
  · unfold circDisks
    rw [hmax]
    apply length_filterMap_of_isSome
    intro lt _
    rcases Option.isSome_iff_exists.mp
      (circTileMean_isSome hgv (show 1 ≤ dot by omega) lt.1 lt.2) with ⟨b, hb⟩
    simp [hb]
  · intro b1 b2 _ _ _ _ hsc
    have hdq : (0 : ℚ) ≤ (dot : ℚ) / 2 := by positivity
    exact mul_le_mul_of_nonneg_left hsc hdq

/-- Closed witness for C1 on the 3 × 2 white raster with `dot_size = 2`. -/
theorem circular_disk_geometry_witness :
    (2 ≤ 2 ∧ white3x2.Valid)
    ∧ ((∀ disk ∈ circDisks (grayscaleOf white3x2) 2,
        disk.cx = (disk.left : ℚ) + (2 : ℚ) / 2
        ∧ disk.cy = (disk.top : ℚ) + (2 : ℚ) / 2
        ∧ disk.radius = ((2 : ℚ) / 2) * (1 - disk.brightness / 255)
        ∧ 0 ≤ disk.brightness ∧ disk.brightness ≤ 255
        ∧ 0 ≤ disk.radius ∧ disk.radius ≤ (2 : ℚ) / 2)
    ∧ (circDisks (grayscaleOf white3x2) 2).length
        = (circCoords white3x2.width white3x2.height 2).length
    ∧ (∀ b1 b2 : ℚ, 0 ≤ b1 → b1 ≤ 255 → 0 ≤ b2 → b2 ≤ 255 →
        1 - b1 / 255 ≤ 1 - b2 / 255 →
        (circDiskOf 2 0 0 b1).radius ≤ (circDiskOf 2 0 0 b2).radius)
    ∧ applyCircularHalftone white3x2 2
        = grayToRGB ((circDisks (grayscaleOf white3x2) 2).foldl drawDisk
            (whiteCanvas white3x2.width white3x2.height))) :=
  ⟨⟨le_refl 2, fun _ _ _ _ => ⟨le_refl 255, le_refl 255, le_refl 255⟩⟩,
    circular_disk_geometry white3x2 2 (le_refl 2)
      (fun _ _ _ _ => ⟨le_refl 255, le_refl 255, le_refl 255⟩)⟩

theorem flatMap_sum {α : Type} (l : List α) (f : α → List ℕ) :
    (l.flatMap f).sum = (l.map (fun x => (f x).sum)).sum := by
  induction l with
  | nil => rfl
  | cons a l ih =>
    rw [List.flatMap_cons, List.sum_append, ih, List.map_cons, List.sum_cons]

theorem sum_range_map_eq_of_zero_tail {f : ℕ → ℕ} {m n : ℕ} (hmn : m ≤ n)
    (hz : ∀ k, m ≤ k → k < n → f k = 0) :
    ((List.range n).map f).sum = ((List.range m).map f).sum := by
  induction n with
  | zero =>
    have h0 : m = 0 := by omega
    subst h0
    rfl
  | succ n ih =>
    by_cases hm : m = n + 1
    · subst hm
      rfl
    · have hmn' : m ≤ n := by omega
      rw [List.range_succ, List.map_append, List.sum_append]
      simp only [List.map_cons, List.map_nil, List.sum_cons, List.sum_nil]
      rw [hz n hmn' (by omega), ih hmn' (fun k hk1 hk2 => hz k hk1 (by omega))]
      omega

theorem padPx_zero_of_x_oob {g : GrayImage} {x : ℕ} (hx : g.width ≤ x) (y : ℕ) :
    padPx g x y = 0 := by
  unfold padPx
  rw [if_neg]
  rintro ⟨h1, -⟩
  omega

theorem padPx_zero_of_y_oob {g : GrayImage} (x : ℕ) {y : ℕ} (hy : g.height ≤ y) :
    padPx g x y = 0 := by
  unfold padPx
  rw [if_neg]
  rintro ⟨-, h2⟩
  omega

/-- The zero-padded unclipped crop and the clipped crop have the same
pixel sum: the padding contributes zero. -/
theorem cropVals_sum_eq_clipped (g : GrayImage) (d left top : ℕ) :
    (cropVals g left top d d).sum = inboundsTileSum g d left top := by
  set w' := min (left + d) g.width - left with hw'
  set h' := min (top + d) g.height - top with hh'
  have hwd : w' ≤ d := by omega
  have hhd : h' ≤ d := by omega
  have hrow : ∀ dy, ((List.range d).map (fun dx => padPx g (left + dx) (top + dy))).sum
      = ((List.range w').map (fun dx => padPx g (left + dx) (top + dy))).sum := by
    intro dy
    apply sum_range_map_eq_of_zero_tail hwd
    intro k hk1 hk2
    apply padPx_zero_of_x_oob
    omega
  have hzrow : ∀ dy, h' ≤ dy → dy < d →
      ((List.range w').map (fun dx => padPx g (left + dx) (top + dy))).sum = 0 := by
    intro dy hdy hdy2
    apply List.sum_eq_zero
    intro x hx
    rcases List.mem_map.mp hx with ⟨dx, -, rfl⟩
    apply padPx_zero_of_y_oob
    omega
  unfold cropVals inboundsTileSum cropBoxVals cropVals
  rw [flatMap_sum, flatMap_sum]
  have houter : ∀ (m : ℕ), ((List.range m).map (fun dy =>
        ((List.range d).map (fun dx => padPx g (left + dx) (top + dy))).sum)).sum
      = ((List.range m).map (fun dy =>
        ((List.range w').map (fun dx => padPx g (left + dx) (top + dy))).sum)).sum := by
    intro m
    congr 1
    apply List.map_congr_left
    intro dy _
    exact hrow dy
  rw [houter d]
  rw [sum_range_map_eq_of_zero_tail hhd (fun k hk1 hk2 => hzrow k hk1 hk2)]

/-- C3 (amended): every circular-renderer tile brightness is the sum of
the tile's *in-bounds* pixel luminances divided by the full unclipped
area `dot_size²` - out-of-bounds area counts as black (crop
zero-padding), the extent is *not* clipped before averaging. -/
theorem circ_tile_brightness_zero_padded (g : GrayImage) (d left top : ℕ)
    (hv : g.Valid) (hd : 1 ≤ d) :
    circTileMean g d left top
      = some ((inboundsTileSum g d left top : ℚ) / ((d * d : ℕ) : ℚ)) := by
  unfold circTileMean tileMeanOpt
  have hlt := cropVals_lt_256 hv left top d d
  have htot : histTotal (cropVals g left top d d) = d * d := by
    rw [histTotal_eq_length hlt, cropVals_length]
  have hwt : histWeighted (cropVals g left top d d) = inboundsTileSum g d left top := by
    rw [histWeighted_eq_sum hlt, cropVals_sum_eq_clipped]
  have hne : ¬ d * d = 0 := by
    have : 0 < d * d := Nat.mul_pos (by omega) (by omega)
    omega
  rw [htot, hwt, if_neg hne]

/-- Closed witness for C3 (amended) at an interior-free edge tile of the
3 × 2 white raster. -/
theorem circ_tile_brightness_zero_padded_witness :
    ((grayscaleOf white3x2).Valid ∧ 1 ≤ 2)
    ∧ circTileMean (grayscaleOf white3x2) 2 2 0
      = some ((inboundsTileSum (grayscaleOf white3x2) 2 2 0 : ℚ) / ((2 * 2 : ℕ) : ℚ)) :=
  ⟨⟨grayscaleOf_valid (fun _ _ _ _ => ⟨le_refl 255, le_refl 255, le_refl 255⟩),
      le_refl 1 |>.trans (by omega)⟩,
    circ_tile_brightness_zero_padded (grayscaleOf white3x2) 2 2 0
      (grayscaleOf_valid (fun _ _ _ _ => ⟨le_refl 255, le_refl 255, le_refl 255⟩))
      (by omega)⟩

set_option maxRecDepth 100000 in
/-- C3 counterexample to the claim as stated: on a 3 × 2 all-white
image with `dot_size = 2`, the trailing-column tile at `(left, top) =
(2, 0)` has code brightness `127.5` (two white pixels plus two
zero-padding pixels averaged over the full 2 × 2 extent), while the
mean over only the in-bounds pixels is `255`. -/
theorem circ_tile_clipping_counterexample :
    circTileMean (grayscaleOf white3x2) 2 2 0 = some (255 / 2)
    ∧ clippedTileMean (grayscaleOf white3x2) 2 2 0 = some 255
    ∧ (255 / 2 : ℚ) ≠ 255 := by
  have hvals : cropVals (grayscaleOf white3x2) 2 0 2 2 = [255, 0, 255, 0] := by decide
  have hclip : cropBoxVals (grayscaleOf white3x2) 2 0
      (min (2 + 2) (grayscaleOf white3x2).width)
      (min (0 + 2) (grayscaleOf white3x2).height) = [255, 255] := by decide
  refine ⟨?_, ?_, by norm_num⟩
  · unfold circTileMean tileMeanOpt
    rw [hvals]
    have hw : histWeighted [255, 0, 255, 0] = 510 := by decide
    have ht : histTotal [255, 0, 255, 0] = 4 := by decide
    rw [hw, ht, if_neg (by norm_num)]
    norm_num
  · unfold clippedTileMean
    rw [hclip]
    norm_num

theorem cropVals_const_sum (g : GrayImage) (l t w h c : ℕ)
    (hc : ∀ dx dy, dx < w → dy < h → padPx g (l + dx) (t + dy) = c) :
    (cropVals g l t w h).sum = h * (w * c) := by
  unfold cropVals
  rw [flatMap_sum]
  have hrow : ∀ dy, dy < h →
      ((List.range w).map (fun dx => padPx g (l + dx) (t + dy))).sum = w * c := by
    intro dy hdy
    have he : (List.range w).map (fun dx => padPx g (l + dx) (t + dy))
        = (List.range w).map (fun _ => c) := by
      apply List.map_congr_left
      intro dx hdx
      exact hc dx dy (List.mem_range.mp hdx) hdy
    rw [he, List.map_const', List.sum_replicate, List.length_range, smul_eq_mul]
  have houter : (List.range h).map
      (fun dy => ((List.range w).map (fun dx => padPx g (l + dx) (t + dy))).sum)
      = (List.range h).map (fun _ => w * c) := by
    apply List.map_congr_left
    intro dy hdy
    exact hrow dy (List.mem_range.mp hdy)
  rw [houter, List.map_const', List.sum_replicate, List.length_range, smul_eq_mul]

theorem pilEllipseCovers_degenerate {cx cy : ℤ} {X0 Y0 X1 Y1 : ℚ}
    (h0 : pxCoord X0 = cx) (h1 : pxCoord Y0 = cy) (h2 : pxCoord X1 = cx)
    (h3 : pxCoord Y1 = cy) (x y : ℕ) :
    pilEllipseCovers X0 Y0 X1 Y1 x y = decide ((x : ℤ) = cx ∧ (y : ℤ) = cy) := by
  unfold pilEllipseCovers
  simp only [h0, h1, h2, h3]
  rw [if_neg (by simp), if_pos (Or.inl (by omega))]
  rw [decide_eq_decide]
  omega

theorem pxCoord_white_center (m : ℕ) :
    pxCoord ((m : ℚ) + (8 : ℚ) / 2 - ((8 : ℚ) / 2) * (1 - (255 : ℚ) / 255))
      = (m : ℤ) + 4
    ∧ pxCoord ((m : ℚ) + (8 : ℚ) / 2 + ((8 : ℚ) / 2) * (1 - (255 : ℚ) / 255))
      = (m : ℤ) + 4 := by
  have he : ∀ q : ℚ, q = (m : ℚ) + 4 → pxCoord q = (m : ℤ) + 4 := by
    intro q hq
    subst hq
    unfold pxCoord
    rw [ratTrunc_of_nonneg (by positivity)]
    rw [show (m : ℚ) + 4 = (((m + 4 : ℕ) : ℤ) : ℚ) by push_cast; ring]
    rw [Int.floor_intCast]
    push_cast
    ring
  exact ⟨he _ (by norm_num), he _ (by norm_num)⟩

theorem circWhite_tile_sum (l t : ℕ) (hl : l + 8 ≤ 16) (ht : t + 8 ≤ 16) :
    inboundsTileSum (grayscaleOf white16) 8 l t = 16320 := by
  unfold inboundsTileSum cropBoxVals
  rw [show min (l + 8) (grayscaleOf white16).width = l + 8 from by
    show min (l + 8) 16 = l + 8
    omega]
  rw [show min (t + 8) (grayscaleOf white16).height = t + 8 from by
    show min (t + 8) 16 = t + 8
    omega]
  rw [show l + 8 - l = 8 from by omega, show t + 8 - t = 8 from by omega]
  have hpx : ∀ dx dy, dx < 8 → dy < 8 →
      padPx (grayscaleOf white16) (l + dx) (t + dy) = 255 := by
    intro dx dy hdx hdy
    unfold padPx
    rw [if_pos ⟨show l + dx < (grayscaleOf white16).width from by
        show l + dx < 16
        omega,
      show t + dy < (grayscaleOf white16).height from by
        show t + dy < 16
        omega⟩]
    show luma (white16.px (l + dx) (t + dy)) = 255
    norm_num [white16, whiteRGB, luma]
  rw [cropVals_const_sum (grayscaleOf white16) l t 8 8 255 hpx]

theorem circWhite_tile_mean (left top : ℕ)
    (hsum2 : inboundsTileSum (grayscaleOf white16) 8 left top = 16320) :
    circTileMean (grayscaleOf white16) 8 left top = some 255 := by
  have hv : white16.Valid := fun _ _ _ _ => ⟨le_refl _, le_refl _, le_refl _⟩
  rw [circ_tile_brightness_zero_padded _ _ _ _ (grayscaleOf_valid hv) (by omega), hsum2]
  norm_num

theorem circWhite_disks :
    circDisks (grayscaleOf white16) 8
      = [circDiskOf 8 0 0 255, circDiskOf 8 8 0 255,
         circDiskOf 8 0 8 255, circDiskOf 8 8 8 255] := by
  have h00 := circWhite_tile_mean 0 0 (circWhite_tile_sum 0 0 (by omega) (by omega))
  have h80 := circWhite_tile_mean 8 0 (circWhite_tile_sum 8 0 (by omega) (by omega))
  have h08 := circWhite_tile_mean 0 8 (circWhite_tile_sum 0 8 (by omega) (by omega))
  have h88 := circWhite_tile_mean 8 8 (circWhite_tile_sum 8 8 (by omega) (by omega))
  simp only [circDisks]
  rw [show max 2 8 = 8 from by decide]
  rw [show circCoords (grayscaleOf white16).width (grayscaleOf white16).height 8
      = [(0, 0), (8, 0), (0, 8), (8, 8)] from by decide]
  simp only [List.filterMap_cons, List.filterMap_nil, h00, h80, h08, h88,
    Option.map_some']

theorem circWhite_cover (l t : ℕ) :
    pilEllipseCovers ((circDiskOf 8 l t 255).cx - (circDiskOf 8 l t 255).radius)
      ((circDiskOf 8 l t 255).cy - (circDiskOf 8 l t 255).radius)
      ((circDiskOf 8 l t 255).cx + (circDiskOf 8 l t 255).radius)
      ((circDiskOf 8 l t 255).cy + (circDiskOf 8 l t 255).radius) 4 4
    = decide ((4 : ℤ) = (l : ℤ) + 4 ∧ (4 : ℤ) = (t : ℤ) + 4) := by
  have hx := pxCoord_white_center l
  have hy := pxCoord_white_center t
  exact pilEllipseCovers_degenerate hx.1 hy.1 hx.2 hy.2 4 4

set_option maxRecDepth 100000 in
theorem circWhite_center_pixel : (applyCircularHalftone white16 8).px 4 4 = (0, 0, 0) := by
  have hc00 := circWhite_cover 0 0
  have hc80 := circWhite_cover 8 0
  have hc08 := circWhite_cover 0 8
  have hc88 := circWhite_cover 8 8
  norm_num at hc00 hc80 hc08 hc88
  show (grayToRGB ((circDisks (grayscaleOf white16) 8).foldl drawDisk
      (whiteCanvas (grayscaleOf white16).width (grayscaleOf white16).height))).px 4 4
      = (0, 0, 0)
  rw [circWhite_disks]
  simp only [List.foldl_cons, List.foldl_nil, grayToRGB]
  simp only [drawDisk, hc00, hc80, hc08, hc88]
  norm_num

/-- C4 (code bug): on the 16 × 16 all-white input with `dot_size = 8`
every tile has brightness 255 and disk radius 0, yet the code still
calls `draw.ellipse` with the degenerate point box, which Pillow paints
as one pixel - the output is *not* all white: pixel (4, 4) (the first
tile center) is black.  The spec scenario says no pixel is darkened. -/
theorem circ_white_not_all_white :
    (∀ x y, x < 16 → y < 16 → white16.px x y = (255, 255, 255))
    ∧ circDisks (grayscaleOf white16) 8
        = [circDiskOf 8 0 0 255, circDiskOf 8 8 0 255,
           circDiskOf 8 0 8 255, circDiskOf 8 8 8 255]
    ∧ (circDiskOf 8 0 0 255).radius = 0
    ∧ (applyCircularHalftone white16 8).px 4 4 = (0, 0, 0) :=
  ⟨fun _ _ _ _ => rfl, circWhite_disks, by simp [circDiskOf], circWhite_center_pixel⟩

/-! ## Store lemmas: every catalogued transform only appends fresh
slots and mutates slots it allocated itself. -/

theorem stGet_append_left {α : Type} [Inhabited α] {s : Store α} (t : Store α)
    {i : ℕ} (h : i < s.length) : stGet (s ++ t) i = stGet s i := by
  unfold stGet
  exact List.getD_append s t default i h

theorem stGet_append_right {α : Type} [Inhabited α] (s t : Store α) (i : ℕ) :
    stGet (s ++ t) (s.length + i) = stGet t i := by
  unfold stGet
  rw [List.getD_eq_getElem?_getD, List.getElem?_append_right (by omega),
    show s.length + i - s.length = i from by omega, ← List.getD_eq_getElem?_getD]

theorem stGet_last {α : Type} [Inhabited α] (s : Store α) (v : α) :
    stGet (s ++ [v]) s.length = v := by
  have := stGet_append_right s [v] 0
  simpa using this

theorem stSet_append_right {α : Type} (s t : Store α) (i : ℕ) (v : α) :
    stSet (s ++ t) (s.length + i) v = s ++ stSet t i v := by
  unfold stSet
  induction s with
  | nil => simp
  | cons a s ih => simp [List.set_cons_succ, Nat.succ_add, ih]

theorem circLoop_fold {α : Type} [Inhabited α] (ops : PillowOps α) (d : ℕ)
    (s : Store α) (g : α) (coords : List (ℕ × ℕ)) :
    ∀ (c : α) (ts : List α),
    coords.foldl (circLoopBodyS ops s.length (s.length + 1) d) (s ++ [g, c] ++ ts)
      = s ++ [g, circCanvasFold ops g d c coords] ++ (ts ++ circTileAllocs ops g d coords) := by
  induction coords with
  | nil => intro c ts; simp [circCanvasFold, circTileAllocs]
  | cons lt coords ih =>
    intro c ts
    rw [List.foldl_cons]
    have hshape : ∀ u : List α, s ++ [g, c] ++ u = s ++ ([g, c] ++ u) := by
      intro u; simp
    have hg : stGet (s ++ [g, c] ++ ts) s.length = g := by
      rw [hshape]
      have := stGet_append_right s ([g, c] ++ ts) 0
      simpa using this
    have hbody : circLoopBodyS ops s.length (s.length + 1) d (s ++ [g, c] ++ ts) lt
        = s ++ [g, circCanvasFold ops g d c [lt]]
          ++ (ts ++ [ops.crop g (lt.1, lt.2, lt.1 + d, lt.2 + d)]) := by
      unfold circLoopBodyS
      simp only [stAlloc, hg]
      set tile := ops.crop g (lt.1, lt.2, lt.1 + d, lt.2 + d) with htile
      have hlen : (s ++ [g, c] ++ ts).length = s.length + 2 + ts.length := by
        simp; omega
      have htget : stGet (s ++ [g, c] ++ ts ++ [tile]) (s ++ [g, c] ++ ts).length
          = tile := stGet_last _ _
      rw [htget]
      rcases hm : ops.histMean tile with _ | b
      · simp only [circCanvasFold, List.foldl_cons, List.foldl_nil, hm]
        simp
      · simp only [circCanvasFold, List.foldl_cons, List.foldl_nil, hm]
        have hc : stGet (s ++ [g, c] ++ ts ++ [tile]) (s.length + 1) = c := by
          rw [show s ++ [g, c] ++ ts ++ [tile] = s ++ ([g, c] ++ (ts ++ [tile])) by simp]
          have := stGet_append_right s ([g, c] ++ (ts ++ [tile])) 1
          simpa using this
        rw [hc]
        rw [show s ++ [g, c] ++ ts ++ [tile] = s ++ ([g, c] ++ (ts ++ [tile])) by simp]
        rw [stSet_append_right s ([g, c] ++ (ts ++ [tile])) 1
          (ops.drawEllipse c (circEllipseRect d lt.1 lt.2 b))]
        simp [stSet]
    rw [hbody]
    rw [ih (circCanvasFold ops g d c [lt]) (ts ++ [ops.crop g (lt.1, lt.2, lt.1 + d, lt.2 + d)])]
    simp only [circCanvasFold, circTileAllocs, List.foldl_cons, List.foldl_nil, List.map_cons]
    simp

theorem applyCircularS_spec {α : Type} [Inhabited α] (ops : PillowOps α)
    (h dot : ℕ) (s : Store α) :
    applyCircularS ops h dot s
      = (let v := stGet s h
         let g := ops.gray v
         let wh := ops.size g
         let d := max 2 dot
         let coords := circCoords wh.1 wh.2 d
         let cfin := circCanvasFold ops g d (ops.newL wh.1 wh.2 255) coords
         (s.length + 2 + coords.length,
          s ++ [g, cfin] ++ circTileAllocs ops g d coords ++ [ops.toRGB cfin])) := by
  unfold applyCircularS
  simp only [stAlloc]
  set v := stGet s h with hv
  set g := ops.gray v with hgdef
  have h1 : stGet (s ++ [g]) s.length = g := stGet_last s g
  rw [h1]
  set wh := ops.size g with hwh
  set d := max 2 dot with hd
  set c0 := ops.newL wh.1 wh.2 255 with hc0
  have hshape : s ++ [g] ++ [c0] = s ++ [g, c0] ++ ([] : List α) := by simp
  rw [show (s ++ [g]).length = s.length + 1 by simp]
  rw [hshape, circLoop_fold ops d s g (circCoords wh.1 wh.2 d) c0 []]
  set coords := circCoords wh.1 wh.2 d with hcoords
  set cfin := circCanvasFold ops g d c0 coords with hcfin
  have h2 : stGet (s ++ [g, cfin] ++ ([] ++ circTileAllocs ops g d coords)) (s.length + 1)
      = cfin := by
    rw [show s ++ [g, cfin] ++ ([] ++ circTileAllocs ops g d coords)
        = s ++ ([g, cfin] ++ circTileAllocs ops g d coords) by simp]
    have := stGet_append_right s ([g, cfin] ++ circTileAllocs ops g d coords) 1
    simpa using this
  rw [h2]
  have h3 : (s ++ [g, cfin] ++ ([] ++ circTileAllocs ops g d coords)).length
      = s.length + 2 + coords.length := by
    simp [circTileAllocs]
    omega
  rw [h3]
  simp

theorem applyIdentityS_spec {α : Type} [Inhabited α] (ops : PillowOps α)
    (h dot : ℕ) (s : Store α) :
    applyIdentityS ops h dot s = (s.length, s ++ [ops.copy (stGet s h)]) := rfl

theorem applyGrayscaleS_spec {α : Type} [Inhabited α] (ops : PillowOps α)
    (h dot : ℕ) (s : Store α) :
    applyGrayscaleS ops h dot s
      = (s.length + 1,
         s ++ [ops.gray (stGet s h), ops.toRGB (ops.gray (stGet s h))]) := by
  unfold applyGrayscaleS
  simp only [stAlloc, stGet_last]
  simp

theorem applyFloydSteinbergS_spec {α : Type} [Inhabited α] (ops : PillowOps α)
    (h dot : ℕ) (s : Store α) :
    applyFloydSteinbergS ops h dot s
      = (s.length + 1,
         s ++ [ops.ditherFS (stGet s h), ops.toRGB (ops.ditherFS (stGet s h))]) := by
  unfold applyFloydSteinbergS
  simp only [stAlloc, stGet_last]
  simp

theorem applyOrderedDitherS_spec {α : Type} [Inhabited α] (ops : PillowOps α)
    (h dot : ℕ) (s : Store α) :
    applyOrderedDitherS ops h dot s
      = (s.length + 2,
         s ++ [ops.toL (stGet s h), ops.ditherOrdered (ops.toL (stGet s h)),
           ops.toRGB (ops.ditherOrdered (ops.toL (stGet s h)))]) := by
  unfold applyOrderedDitherS
  simp only [stAlloc, stGet_last]
  simp

theorem asciiSampleBody_fold {α : Type} [Inhabited α] (ops : PillowOps α)
    (w ht d sh top : ℕ) (charset : List Char) (lefts : List ℕ) :
    ∀ (s : Store α) (gh : ℕ) (row : List Char), gh < s.length →
    lefts.foldl (asciiSampleBodyS ops gh w ht d sh charset top) (s, row)
      = (s ++ lefts.map (fun left => ops.crop (stGet s gh) (asciiTileBox w ht d sh left top)),
         row ++ lefts.map (fun left => asciiCharFor charset
           ((ops.histMean (ops.crop (stGet s gh) (asciiTileBox w ht d sh left top))).getD
             255))) := by
  induction lefts with
  | nil => intro s gh row hgh; simp
  | cons left lefts ih =>
    intro s gh row hgh
    rw [List.foldl_cons]
    have hbody : asciiSampleBodyS ops gh w ht d sh charset top (s, row) left
        = (s ++ [ops.crop (stGet s gh) (asciiTileBox w ht d sh left top)],
           row ++ [asciiCharFor charset
             ((ops.histMean (ops.crop (stGet s gh) (asciiTileBox w ht d sh left top))).getD
               255)]) := by
      unfold asciiSampleBodyS
      simp only [stAlloc, stGet_last]
    rw [hbody]
    rw [ih (s ++ [ops.crop (stGet s gh) (asciiTileBox w ht d sh left top)]) gh
      (row ++ [asciiCharFor charset
        ((ops.histMean (ops.crop (stGet s gh) (asciiTileBox w ht d sh left top))).getD 255)])
      (by simp; omega)]
    rw [stGet_append_left _ hgh]
    simp

theorem asciiRowLoop_fold {α : Type} [Inhabited α] (ops : PillowOps α)
    (w ht d sh : ℕ) (charset : List Char) (tops : List ℕ) :
    ∀ (s : Store α) (gh : ℕ) (lines : List (List Char)), gh < s.length →
    tops.foldl (asciiRowLoopS ops gh w ht d sh charset) (s, lines)
      = (s ++ tops.flatMap (fun top => asciiRowCropsS ops (stGet s gh) w ht d sh top),
         lines ++ tops.map (fun top => asciiRowPureS ops (stGet s gh) w ht d sh charset top)) := by
  induction tops with
  | nil => intro s gh lines hgh; simp
  | cons top tops ih =>
    intro s gh lines hgh
    rw [List.foldl_cons]
    have hrow : asciiRowLoopS ops gh w ht d sh charset (s, lines) top
        = (s ++ asciiRowCropsS ops (stGet s gh) w ht d sh top,
           lines ++ [asciiRowPureS ops (stGet s gh) w ht d sh charset top]) := by
      unfold asciiRowLoopS
      rw [asciiSampleBody_fold ops w ht d sh top charset (pyRange w d) s gh [] hgh]
      simp [asciiRowCropsS, asciiRowPureS, asciiTileBrightnessS]
    rw [hrow]
    rw [ih (s ++ asciiRowCropsS ops (stGet s gh) w ht d sh top) gh
      (lines ++ [asciiRowPureS ops (stGet s gh) w ht d sh charset top]) (by simp; omega)]
    rw [stGet_append_left _ hgh]
    simp [asciiCropsS]

theorem asciiSampleLoopS_spec {α : Type} [Inhabited α] (ops : PillowOps α)
    (w ht d sh : ℕ) (charset : List Char) (s : Store α) (gh : ℕ)
    (hgh : gh < s.length) :
    asciiSampleLoopS ops gh w ht d sh charset s
      = (s ++ asciiCropsS ops (stGet s gh) w ht d sh,
         asciiLinesPureS ops (stGet s gh) w ht d sh charset) := by
  unfold asciiSampleLoopS
  rw [asciiRowLoop_fold ops w ht d sh charset (pyRange ht sh) s gh [] hgh]
  simp [asciiCropsS, asciiLinesPureS]

theorem pasteFold_spec {α : Type} [Inhabited α] (ops : PillowOps α)
    (glyphs : Char → Option α) (entries : List (Char × ℕ × ℕ)) :
    ∀ (s : Store α) (c : α),
    entries.foldl (asciiPasteBodyS ops glyphs s.length) (s ++ [c])
      = s ++ [pasteFoldPure ops glyphs c entries] := by
  induction entries with
  | nil => intro s c; simp [pasteFoldPure]
  | cons e entries ih =>
    intro s c
    rw [List.foldl_cons]
    have hbody : asciiPasteBodyS ops glyphs s.length (s ++ [c]) e
        = s ++ [pasteFoldPure ops glyphs c [e]] := by
      unfold asciiPasteBodyS
      rcases hg : glyphs e.1 with _ | glyph
      · simp [pasteFoldPure, hg]
      · simp only [hg]
        rw [stGet_last s c]
        have hset := stSet_append_right s [c] 0 (ops.paste c glyph (e.2.1, e.2.2))
        simp only [Nat.add_zero] at hset
        rw [hset]
        simp [pasteFoldPure, hg, stSet]
    rw [hbody, ih s (pasteFoldPure ops glyphs c [e])]
    simp [pasteFoldPure]

theorem asciiRenderAllocs_ne_nil {α : Type} (ops : PillowOps α)
    (lines : List (List Char)) (glyphs : Char → Option α) (gw gh tw th : ℕ) :
    1 ≤ (asciiRenderAllocs ops lines glyphs gw gh tw th).length := by
  unfold asciiRenderAllocs
  by_cases h1 : lines = []
  · rw [if_pos h1]
    simp
  · rw [if_neg h1]
    by_cases h2 : (lines.map List.length).foldl max 0 = 0 ∨ gw = 0 ∨ gh = 0
    · rw [if_pos h2]
      simp
    · rw [if_neg h2]
      by_cases h3 : gw ≠ tw ∨ gh ≠ th
      · rw [if_pos h3]
        simp
      · rw [if_neg h3]
        simp

theorem asciiLinesToImageS_spec {α : Type} [Inhabited α] (ops : PillowOps α)
    (lines : List (List Char)) (glyphs : Char → Option α) (gw gh tw th : ℕ)
    (s : Store α) :
    asciiLinesToImageS ops lines glyphs gw gh tw th s
      = (s.length + (asciiRenderAllocs ops lines glyphs gw gh tw th).length - 1,
         s ++ asciiRenderAllocs ops lines glyphs gw gh tw th) := by
  unfold asciiLinesToImageS asciiRenderAllocs
  by_cases h1 : lines = []
  · rw [if_pos h1, if_pos h1]
    simp [stAlloc]
  · rw [if_neg h1, if_neg h1]
    by_cases h2 : (lines.map List.length).foldl max 0 = 0 ∨ gw = 0 ∨ gh = 0
    · rw [if_pos h2, if_pos h2]
      simp [stAlloc]
    · rw [if_neg h2, if_neg h2]
      simp only [stAlloc]
      rw [pasteFold_spec ops glyphs (pasteCoords lines gw gh) s
        (ops.newL ((lines.map List.length).foldl max 0 * gw) (lines.length * gh) 255)]
      set cfin := pasteFoldPure ops glyphs
        (ops.newL ((lines.map List.length).foldl max 0 * gw) (lines.length * gh) 255)
        (pasteCoords lines gw gh) with hcfin
      by_cases h3 : gw ≠ tw ∨ gh ≠ th
      · rw [if_pos h3, if_pos h3]
        rw [stGet_last s cfin]
        set rs := ops.resizeNearest cfin
          ((lines.map List.length).foldl max 0 * tw, lines.length * th) with hrs
        have hget : stGet (s ++ [cfin] ++ [rs]) (s ++ [cfin]).length = rs :=
          stGet_last _ _
        rw [hget]
        simp
      · rw [if_neg h3, if_neg h3]
        rw [stGet_last s cfin]
        simp

theorem applyAsciiS_spec {α : Type} [Inhabited α] (ops : PillowOps α)
    (h dot : ℕ) (s : Store α) (hh : h < s.length) :
    applyAsciiS ops h dot s
      = (s.length + (asciiTrace ops (stGet s h) dot).length - 1,
         s ++ asciiTrace ops (stGet s h) dot) := by
  unfold applyAsciiS asciiTrace
  simp only [stAlloc]
  set v := stGet s h with hv
  set g := ops.gray v with hg
  rw [stGet_last s g]
  set wh := ops.size g with hwh
  set d := max 2 dot with hd
  set geom := asciiGeometryS ops d defaultAsciiCharset none with hgeom
  rw [asciiSampleLoopS_spec ops wh.1 wh.2 d geom.1 defaultAsciiCharset (s ++ [g])
    s.length (by simp)]
  rw [stGet_last s g]
  set crops := asciiCropsS ops g wh.1 wh.2 d geom.1 with hcrops
  set lines := asciiLinesPureS ops g wh.1 wh.2 d geom.1 defaultAsciiCharset with hlines
  rw [asciiLinesToImageS_spec ops lines geom.2.2.2 geom.2.1 geom.2.2.1 dot geom.1
    (s ++ [g] ++ crops)]
  set render := asciiRenderAllocs ops lines geom.2.2.2 geom.2.1 geom.2.2.1 dot geom.1
    with hrender
  have hL := asciiRenderAllocs_ne_nil ops lines geom.2.2.2 geom.2.1 geom.2.2.1 dot geom.1
  rw [← hrender] at hL
  have hidx : (s ++ [g] ++ crops).length + render.length - 1
      = (s ++ [g] ++ crops).length + (render.length - 1) := by omega
  rw [hidx]
  have hgetlast : stGet (s ++ [g] ++ crops ++ render)
      ((s ++ [g] ++ crops).length + (render.length - 1))
      = render.getD (render.length - 1) default := by
    rw [stGet_append_right (s ++ [g] ++ crops) render (render.length - 1)]
    rfl
  rw [hgetlast]
  have hgeth : stGet (s ++ [g] ++ crops ++ render) h = v := by
    rw [show s ++ [g] ++ crops ++ render = s ++ ([g] ++ crops ++ render) by simp]
    rw [stGet_append_left _ hh]
  rw [hgeth]
  set renderLast := render.getD (render.length - 1) default with hrl
  by_cases hcond : ops.size renderLast ≠ ops.size v
  · rw [if_pos hcond, if_pos hcond]
    simp only [stAlloc, Prod.mk.injEq]
    constructor
    · simp
      omega
    · simp
  · rw [if_neg hcond, if_neg hcond]
    simp only [Prod.mk.injEq]
    constructor
    · simp
      omega
    · simp

theorem asciiTrace_ne_nil {α : Type} [Inhabited α] (ops : PillowOps α) (v : α)
    (dot : ℕ) : 1 ≤ (asciiTrace ops v dot).length := by
  simp only [asciiTrace]
  simp

/-- Every catalogued transform has a pure allocation trace: applied to
any store, it returns `s ++ trace` computed only from the input image
value, with the result handle pointing at the last allocation.  In
particular no pre-existing slot is written and the result is a fresh
raster. -/
theorem halftone_method_trace {α : Type} [Inhabited α] (ops : PillowOps α)
    {m : HalftoneMethodS α} (hm : m ∈ halftoneMethods ops) :
    ∃ tr : α → ℕ → List α,
      (∀ v dot, 1 ≤ (tr v dot).length) ∧
      ∀ h dot (s : Store α), h < s.length →
        m.apply h dot s
          = (s.length + (tr (stGet s h) dot).length - 1, s ++ tr (stGet s h) dot) := by
  simp only [halftoneMethods, List.mem_cons, List.not_mem_nil, or_false] at hm
  rcases hm with rfl | rfl | rfl | rfl | rfl | rfl
  · refine ⟨fun v _ => [ops.copy v], fun v dot => by simp, ?_⟩
    intro h dot s hh
    show applyIdentityS ops h dot s = _
    rw [applyIdentityS_spec]
    simp
  · refine ⟨fun v _ => [ops.gray v, ops.toRGB (ops.gray v)], fun v dot => by simp, ?_⟩
    intro h dot s hh
    show applyGrayscaleS ops h dot s = _
    rw [applyGrayscaleS_spec]
    simp
  · refine ⟨fun v _ => [ops.ditherFS v, ops.toRGB (ops.ditherFS v)],
      fun v dot => by simp, ?_⟩
    intro h dot s hh
    show applyFloydSteinbergS ops h dot s = _
    rw [applyFloydSteinbergS_spec]
    simp
  · refine ⟨fun v _ => [ops.toL v, ops.ditherOrdered (ops.toL v),
      ops.toRGB (ops.ditherOrdered (ops.toL v))], fun v dot => by simp, ?_⟩
    intro h dot s hh
    show applyOrderedDitherS ops h dot s = _
    rw [applyOrderedDitherS_spec]
    simp
  · refine ⟨fun v dot =>
      (let g := ops.gray v
       let wh := ops.size g
       let d := max 2 dot
       let coords := circCoords wh.1 wh.2 d
       let cfin := circCanvasFold ops g d (ops.newL wh.1 wh.2 255) coords
       [g, cfin] ++ circTileAllocs ops g d coords ++ [ops.toRGB cfin]),
      fun v dot => by simp, ?_⟩
    intro h dot s hh
    show applyCircularS ops h dot s = _
    rw [applyCircularS_spec]
    simp only [circTileAllocs, List.length_append, List.length_map, List.length_cons,
      List.length_nil, Prod.mk.injEq]
    constructor
    · omega
    · simp
  · refine ⟨fun v dot => asciiTrace ops v dot, fun v dot => asciiTrace_ne_nil ops v dot, ?_⟩
    intro h dot s hh
    show applyAsciiS ops h dot s = _
    rw [applyAsciiS_spec ops h dot s hh]

theorem find_method_of_mem {α : Type} [Inhabited α] (ops : PillowOps α)
    {name : String} (h : name ∈ availableMethods ops) :
    ∃ m, (halftoneMethods ops).find? (fun m => m.name = name) = some m
      ∧ m ∈ halftoneMethods ops ∧ m.name = name := by
  have hsome : ((halftoneMethods ops).find? (fun m => m.name = name)).isSome := by
    rw [List.find?_isSome]
    rcases List.mem_map.mp h with ⟨m0, hm0, hname⟩
    exact ⟨m0, hm0, by simp [hname]⟩
  rcases Option.isSome_iff_exists.mp hsome with ⟨m, hm⟩
  refine ⟨m, hm, List.mem_of_find?_eq_some hm, ?_⟩
  have := List.find?_some hm
  simpa using this

/-- C7: a name outside `available_methods()` makes both `describe` and
`process` fail with the registry's unknown-method error, and a
catalogued name makes `process` delegate to that method's transform and
return its result. -/
theorem registry_dispatch {α : Type} [Inhabited α] (ops : PillowOps α)
    (s : Store α) (h dot : ℕ) (name : String) :
    (name ∉ availableMethods ops →
      describeMethod ops name = .error .unknownMethod
      ∧ processImage ops s h name dot = .error .unknownMethod)
    ∧ (name ∈ availableMethods ops →
      ∃ m ∈ halftoneMethods ops, m.name = name
        ∧ processImage ops s h name dot = .ok (m.apply h dot s)
        ∧ describeMethod ops name = .ok m.description) := by
  constructor
  · intro hnot
    have hnone : (halftoneMethods ops).find? (fun m => m.name = name) = none := by
      rw [List.find?_eq_none]
      intro m hm hmn
      apply hnot
      unfold availableMethods
      exact List.mem_map.mpr ⟨m, hm, by simpa using hmn⟩
    unfold describeMethod processImage
    rw [hnone]
    exact ⟨rfl, rfl⟩
  · intro hmem
    rcases find_method_of_mem ops hmem with ⟨m, hfind, hmm, hname⟩
    refine ⟨m, hmm, hname, ?_, ?_⟩
    · unfold processImage
      rw [hfind]
    · unfold describeMethod
      rw [hfind]

/-- Closed witness for C7: an absent name fails, a catalogued name
delegates. -/
theorem registry_dispatch_witness :
    ("Bogus" ∉ availableMethods opsUnit
      ∧ describeMethod opsUnit "Bogus" = .error .unknownMethod
      ∧ processImage opsUnit [()] 0 "Bogus" 4 = .error .unknownMethod)
    ∧ ("Original" ∈ availableMethods opsUnit
      ∧ ∃ m ∈ halftoneMethods opsUnit, m.name = "Original"
        ∧ processImage opsUnit [()] 0 "Original" 4 = .ok (m.apply 0 4 [()])
        ∧ describeMethod opsUnit "Original" = .ok m.description) := by
  have hnot : "Bogus" ∉ availableMethods opsUnit := by
    simp [availableMethods, halftoneMethods]
  have hmem : "Original" ∈ availableMethods opsUnit := by
    simp [availableMethods, halftoneMethods]
  exact ⟨⟨hnot, (registry_dispatch opsUnit [()] 0 4 "Bogus").1 hnot⟩,
    ⟨hmem, (registry_dispatch opsUnit [()] 0 4 "Original").2 hmem⟩⟩

/-- C9: every catalogued transform, run through `process`, is pure -
running it twice on the same input slot yields the same output value,
the output is a freshly allocated raster, and no pre-existing slot (the
input image in particular) is ever modified. -/
theorem process_pure {α : Type} [Inhabited α] (ops : PillowOps α) (name : String)
    (h dot : ℕ) (s : Store α)
    (hname : name ∈ availableMethods ops) (hh : h < s.length) :
    ∃ r1 s1 r2 s2,
      processImage ops s h name dot = .ok (r1, s1)
      ∧ processImage ops s1 h name dot = .ok (r2, s2)
      ∧ s.length ≤ r1 ∧ s1.length ≤ r2
      ∧ (∀ i, i < s.length → stGet s1 i = stGet s i)
      ∧ (∀ i, i < s1.length → stGet s2 i = stGet s1 i)
      ∧ stGet s2 r2 = stGet s1 r1 := by
  rcases find_method_of_mem ops hname with ⟨m, hfind, hmm, -⟩
  rcases halftone_method_trace ops hmm with ⟨tr, htr1, htr⟩
  set v := stGet s h with hv
  have h1 := htr h dot s hh
  have hp1 : processImage ops s h name dot
      = .ok (s.length + (tr v dot).length - 1, s ++ tr v dot) := by
    unfold processImage
    rw [hfind]
    show Except.ok (m.apply h dot s) = _
    rw [h1]
  have hframe1 : ∀ i, i < s.length → stGet (s ++ tr v dot) i = stGet s i :=
    fun i hi => stGet_append_left _ hi
  have hgs1h : stGet (s ++ tr v dot) h = v := hframe1 h hh
  have hh2 : h < (s ++ tr v dot).length := by
    simp only [List.length_append]
    omega
  have h2 := htr h dot (s ++ tr v dot) hh2
  rw [hgs1h] at h2
  have hp2 : processImage ops (s ++ tr v dot) h name dot
      = .ok ((s ++ tr v dot).length + (tr v dot).length - 1, s ++ tr v dot ++ tr v dot) := by
    unfold processImage
    rw [hfind]
    show Except.ok (m.apply h dot (s ++ tr v dot)) = _
    rw [h2]
  have hLpos := htr1 v dot
  refine ⟨s.length + (tr v dot).length - 1, s ++ tr v dot,
    (s ++ tr v dot).length + (tr v dot).length - 1, s ++ tr v dot ++ tr v dot,
    hp1, hp2, by omega, by omega, hframe1,
    fun i hi => stGet_append_left _ hi, ?_⟩
  have e1 : stGet (s ++ tr v dot ++ tr v dot) ((s ++ tr v dot).length + (tr v dot).length - 1)
      = stGet (tr v dot) ((tr v dot).length - 1) := by
    rw [show (s ++ tr v dot).length + (tr v dot).length - 1
        = (s ++ tr v dot).length + ((tr v dot).length - 1) from by omega]
    exact stGet_append_right _ _ _
  have e2 : stGet (s ++ tr v dot) (s.length + (tr v dot).length - 1)
      = stGet (tr v dot) ((tr v dot).length - 1) := by
    rw [show s.length + (tr v dot).length - 1
        = s.length + ((tr v dot).length - 1) from by omega]
    exact stGet_append_right _ _ _
  rw [e1, e2]

/-- Closed witness for C9 on the trivial kernel instance, the
"Original" method, and a one-slot store. -/
theorem process_pure_witness :
    ("Original" ∈ availableMethods opsUnit ∧ 0 < ([()] : Store Unit).length)
    ∧ ∃ r1 s1 r2 s2,
      processImage opsUnit [()] 0 "Original" 3 = .ok (r1, s1)
      ∧ processImage opsUnit s1 0 "Original" 3 = .ok (r2, s2)
      ∧ ([()] : Store Unit).length ≤ r1 ∧ s1.length ≤ r2
      ∧ (∀ i, i < ([()] : Store Unit).length → stGet s1 i = stGet ([()] : Store Unit) i)
      ∧ (∀ i, i < s1.length → stGet s2 i = stGet s1 i)
      ∧ stGet s2 r2 = stGet s1 r1 :=
  ⟨⟨by simp [availableMethods, halftoneMethods], by simp⟩,
    process_pure opsUnit "Original" 0 3 [()]
      (by simp [availableMethods, halftoneMethods]) (by simp)⟩

end Dotzation
